import Mathlib

/-!
# Verification of the termachick string-matching engine

Shallow embedding of the automaton engine of the repository under review:
the generic DFA (src/strings/dfa.py), the single-pattern KMP builder and
searcher (src/strings/kmp.py), the multi-pattern Aho-Corasick builder and
searcher (src/strings/ahocorasick.py), and the persisted-record round trip
(src/strings/stringsapp.py).

Modelling conventions:
* Python strings are `List Char`; texts and patterns are lists of symbols.
* Python `dict`s are insertion-ordered association lists (`List (κ × ν)`);
  a key lookup is `find?`, adding a fresh key appends, updating an existing
  key rewrites in place.  This mirrors CPython's ordered dicts, whose
  iteration order drives `bfs_traverse`.
* Python `set`s of symbols are `List Char` with membership semantics; the
  engine's observable behaviour does not depend on set iteration order.
* Exceptions are `Except String`; `ValueError`/`KeyError`/`IndexError`/
  `AttributeError` become distinguishable error strings.  Python truthiness
  tests on optional states (`if not dfa.transition(...)`) are modelled by
  `pyFalsy`, which is falsy on both `none` and `some 0`, exactly as in Python.
* The unbounded `while` loops that chase failure links during on-the-fly
  search can genuinely diverge in the source (the fail-function chain can
  revisit an index); they are modelled with an explicit fuel parameter and
  a dedicated fuel-exhaustion error standing for non-termination.
-/

set_option maxRecDepth 10000

deriving instance DecidableEq for Except

namespace Termachick

/-- Transition classification from dfa.py: SUCCESS or FAILURE edges. -/
inductive TransitionType where
  | success
  | failure
deriving DecidableEq, Repr

/-- The serialized value of a transition type ("success" / "failure"). -/
def TransitionType.value : TransitionType → String
  | .success => "success"
  | .failure => "failure"

/-- Parse a serialized transition type, as `TransitionType(type_value)` does. -/
def TransitionType.ofValue : String → Except String TransitionType
  | "success" => .ok .success
  | "failure" => .ok .failure
  | _ => .error "ValueError: not a valid TransitionType"

abbrev Sym := Char

/-- One row of the transition table: symbol ↦ (target, kind), in insertion
order.  The source keeps `transitions` and `transition_types` as two parallel
dicts updated in lockstep; they are fused here.  (`get_transition_type` is
never consulted by the builders or the searches.) -/
abbrev Row := List (Sym × Nat × TransitionType)

/-- The DFA of dfa.py: highest allocated state (or none), alphabet,
transition table, initial state, accepting set. -/
structure DFA where
  states : Option Nat
  alphabets : List Sym
  transitions : List (Nat × Row)
  initial_state : Option Nat
  accepting_states : List Nat
deriving DecidableEq, Repr

/-- `DFA.__init__`: an empty automaton over the given alphabet. -/
def DFA.empty (alphabets : List Sym) : DFA :=
  { states := none, alphabets := alphabets, transitions := [],
    initial_state := none, accepting_states := [] }

/-- The row of a state in the transition table, if the state is a dict key. -/
def DFA.findRow (d : DFA) (s : Nat) : Option Row :=
  (d.transitions.find? (fun p => p.1 == s)).map (fun p => p.2)

/-- `DFA.transition`: target of the transition from `s` on `c`, or `none`.
Mirrors `self.transitions[current_state].get(symbol)` guarded by a key test. -/
def DFA.transition (d : DFA) (s : Nat) (c : Sym) : Option Nat :=
  match d.findRow s with
  | none => none
  | some row => (row.find? (fun q => q.1 == c)).map (fun q => q.2.1)

/-- `DFA.transition` called with an arbitrary Python integer state, written as
the Except-valued translation of the method body: both statements of the
source are plain dict lookups, so no branch produces an error. -/
def DFA.transitionE (d : DFA) (s : Int) (c : Sym) : Except String (Option Nat) :=
  match d.transitions.find? (fun p => ((p.1 : Int) == s)) with
  | none => .ok none
  | some p => .ok ((p.2.find? (fun q => q.1 == c)).map (fun q => q.2.1))

/-- `DFA.has_transition`: `transition(...) is not None`. -/
def DFA.has_transition (d : DFA) (s : Nat) (c : Sym) : Bool :=
  (d.transition s c).isSome

/-- Python truthiness of an optional state: `None` and `0` are both falsy. -/
def pyFalsy : Option Nat → Bool
  | none => true
  | some 0 => true
  | some (_ + 1) => false

/-- Python truthiness of `self.initial_state` in `add_state`: the guard
`if self.initial_state:` is false both for `None` and for state `0`. -/
def initialTruthy : Option Nat → Bool
  | none => false
  | some 0 => false
  | some (_ + 1) => true

/-- `DFA.add_state`.  Returns the automaton as mutated by the call together
with the allocated state or the raised error.  The duplicate-initial guard
tests Python truthiness of `self.initial_state`, so an initial state `0`
does not trip it and is silently overwritten. -/
def DFA.add_state (d : DFA) (is_accepting : Bool) (is_initial : Bool) :
    DFA × Except String Nat :=
  let n := match d.states with | none => 0 | some k => k + 1
  let d1 := { d with states := some n }
  if is_initial && initialTruthy d1.initial_state then
    (d1, .error "ValueError: DFA already has an initial state")
  else
    let d2 := if is_initial then { d1 with initial_state := some n } else d1
    let d3 := if is_accepting then
        { d2 with accepting_states :=
            if d2.accepting_states.contains n then d2.accepting_states
            else d2.accepting_states ++ [n] }
      else d2
    (d3, .ok n)

/-- `DFA.add_transition`: validates the endpoints, the symbol and
key-freshness, then records the edge.  All raises precede any mutation. -/
def DFA.add_transition (d : DFA) (from_s : Nat) (sym : Sym) (to_s : Nat)
    (tt : TransitionType) : Except String DFA :=
  match d.states with
  | none => .error "ValueError: No state"
  | some mx =>
    if from_s > mx then .error "ValueError: from state does not exist"
    else if to_s > mx then .error "ValueError: to state does not exist"
    else if !(d.alphabets.contains sym) then .error "ValueError: symbol does not exist"
    else
      match d.findRow from_s with
      | none =>
        .ok { d with transitions := d.transitions ++ [(from_s, [(sym, to_s, tt)])] }
      | some row =>
        if (row.find? (fun q => q.1 == sym)).isSome then
          .error "ValueError: transition already exists"
        else
          .ok { d with transitions :=
            d.transitions.map (fun p =>
              if p.1 == from_s then (p.1, p.2 ++ [(sym, to_s, tt)]) else p) }

/-- `DFA.set_accepting`: unconditional set/unset; `set.remove` on an absent
member raises `KeyError`. -/
def DFA.set_accepting (d : DFA) (s : Nat) (accepting : Bool) :
    Except String DFA :=
  if accepting then
    .ok { d with accepting_states :=
      if d.accepting_states.contains s then d.accepting_states
      else d.accepting_states ++ [s] }
  else if d.accepting_states.contains s then
    .ok { d with accepting_states := d.accepting_states.filter (fun x => x != s) }
  else .error "KeyError"

/-- `DFA.is_accepting_state`: raises when the state is outside the allocated
range, else membership in the accepting set. -/
def DFA.is_accepting_state (d : DFA) (s : Nat) : Except String Bool :=
  match d.states with
  | none => .error "ValueError: state does not exist"
  | some mx =>
    if s > mx then .error "ValueError: state does not exist"
    else .ok (d.accepting_states.contains s)

/-- `DFA.n_states`. -/
def DFA.n_states (d : DFA) : Nat :=
  match d.states with
  | none => 0
  | some n => n + 1

/-- A `(from, symbol, to)` triple as yielded by `bfs_traverse`. -/
abbrev Edge := Nat × Sym × Nat

/-- The edges leaving `s`, in row (insertion) order; empty if `s` is not a
key of the transition table (`if current_state[2] in self.transitions`). -/
def DFA.outEdges (d : DFA) (s : Nat) : List Edge :=
  match d.findRow s with
  | none => []
  | some row => row.map (fun q => (s, q.1, q.2.1))

/-- Total number of recorded transitions, used to bound the BFS loop. -/
def DFA.totalEdges (d : DFA) : Nat :=
  (d.transitions.map (fun p => p.2.length)).sum

/-- One pass of the enqueue block of `bfs_traverse`: each out-edge of the
dequeued target is appended to the queue and to the visited set unless
already visited. -/
def bfsPush (outs : List Edge) (queue visited : List Edge) :
    List Edge × List Edge :=
  outs.foldl
    (fun qv e => if qv.2.contains e then qv else (qv.1 ++ [e], qv.2 ++ [e]))
    (queue, visited)

/-- The BFS work loop of `bfs_traverse`: dequeue, yield, enqueue unvisited
out-edges of the dequeued edge's target.  The source loop always terminates
because each distinct edge is enqueued at most once; the fuel makes that
bound explicit, and `bfsFuel` below is proved sufficient. -/
def bfsLoop (d : DFA) : Nat → List Edge → List Edge → Option (List Edge)
  | _, [], _ => some []
  | 0, _ :: _, _ => none
  | fuel + 1, e :: queue, visited =>
    let (queue', visited') := bfsPush (d.outEdges e.2.2) queue visited
    (bfsLoop d fuel queue' visited').map (fun rest => e :: rest)

/-- Fuel sufficient to drain the BFS queue (proved below). -/
def DFA.bfsFuel (d : DFA) : Nat :=
  2 * d.totalEdges + 2

/-- `DFA.bfs_traverse` forced to a list, as `list(dfa.bfs_traverse())` does:
raises without an initial state; raises `KeyError` when the initial state has
no row in the transition table; otherwise seeds the queue with the initial
state's non-self-loop edges and runs the BFS loop. -/
def DFA.bfs_traverse (d : DFA) : Except String (List Edge) :=
  match d.initial_state with
  | none => .error "ValueError: DFA has no initial state"
  | some init =>
    match d.findRow init with
    | none => .error "KeyError"
    | some row =>
      let first := (row.filter (fun q => q.2.1 != init)).map
        (fun q => (init, q.1, q.2.1))
      match bfsLoop d d.bfsFuel first first with
      | some out => .ok out
      | none => .error "bfs fuel exhausted"

/-- Python list read `l[i]` for a non-negative index: `IndexError` when out
of range. -/
def pyGet (l : List Nat) (i : Nat) : Except String Nat :=
  match l.get? i with
  | some v => .ok v
  | none => .error "IndexError"

/-- Python list write `l[i] = v` for a possibly negative index: a negative
index wraps from the end, an index out of range raises `IndexError`. -/
def pySetI (l : List Nat) (i : Int) (v : Nat) : Except String (List Nat) :=
  if 0 ≤ i ∧ i < (l.length : Int) then
    .ok (l.set i.toNat v)
  else if -(l.length : Int) ≤ i ∧ i < 0 then
    .ok (l.set (l.length - (-i).toNat) v)
  else .error "IndexError"

/-- A match is a (position, pattern) pair; positions are Python ints. -/
abbrev Match := Int × List Sym

/-- The observable outcome of consuming a search generator to the end: the
matches yielded before the generator either finished (`error = none`) or
raised (`error = some e`). -/
structure SearchOut where
  ms : List Match
  error : Option String
deriving DecidableEq, Repr

/-- How a search step reports a match once it lands on an accepting state.
KMP emits `(index - state + 1, pattern)`; Aho-Corasick reads
`self.pattern_map[state]` (a `KeyError` if absent) and emits
`(index - len(pattern) + 1, pattern)`. -/
abbrev Emit := Nat → Nat → Except String Match

/-- The precomputed-mode walk shared verbatim by `KMPMatcher.search` and
`AhoCorasickMatcher.search`: a missing transition is the fatal
`ValueError("Error in DFA definition")`. -/
def searchPre (d : DFA) (emit : Emit) : Nat → Nat → List Sym → SearchOut
  | _, _, [] => ⟨[], none⟩
  | index, state, c :: rest =>
    match d.transition state c with
    | none => ⟨[], some "ValueError: Error in DFA definition"⟩
    | some t =>
      match d.is_accepting_state t with
      | .error e => ⟨[], some e⟩
      | .ok isAcc =>
        if isAcc then
          match emit index t with
          | .error e => ⟨[], some e⟩
          | .ok m =>
            let tail := searchPre d emit (index + 1) t rest
            ⟨m :: tail.ms, tail.error⟩
        else searchPre d emit (index + 1) t rest

/-- The fail-function chase of the on-the-fly searches:
`while not (transition_state := dfa.transition(fail_functions[ffi], sym) or 0)
and ffi > 0: ffi = fail_functions[ffi]`.  The chain can revisit an index and
loop forever in the source; fuel exhaustion models that divergence. -/
def failChain (d : DFA) (ff : List Nat) (c : Sym) :
    Nat → Nat → Except String Nat
  | _, 0 => .error "fail chain fuel exhausted"
  | ffi, fuel + 1 => do
    let x ← pyGet ff ffi
    let ts := (d.transition x c).getD 0
    if ts ≠ 0 then .ok ts
    else if ffi > 0 then failChain d ff c x fuel
    else .ok 0

/-- One on-the-fly transition resolution: direct hit, else chase the fail
functions from `state - 1`, cache the resolved edge as a FAILURE transition
(the source re-checks that the key is still absent before caching), land on
the resolved state.  Raises from the chase or the cache write abort the
search with the automaton unchanged (`add_transition` validates before it
mutates). -/
def resolveLazy (ff : List Nat) (fuel : Nat) (d : DFA) (state : Nat)
    (c : Sym) : Except String (DFA × Nat) :=
  match d.transition state c with
  | some t => .ok (d, t)
  | none => do
    let ffi := if state > 0 then state - 1 else 0
    let ts ← failChain d ff c ffi fuel
    let d2 ← match d.transition state c with
      | none => d.add_transition state c ts .failure
      | some _ => .ok d
    .ok (d2, ts)

/-- The on-the-fly walk shared verbatim by `search_lazy_transition` (kmp.py)
and the else-branch of `AhoCorasickMatcher.search`: resolve each symbol,
caching as it goes, and emit on accepting states.  Returns the yielded
matches together with the automaton as mutated by the call. -/
def searchLazy (ff : List Nat) (emit : Emit) (fuel : Nat) :
    DFA → Nat → Nat → List Sym → SearchOut × DFA
  | d, _, _, [] => (⟨[], none⟩, d)
  | d, index, state, c :: rest =>
    match resolveLazy ff fuel d state c with
    | .error e => (⟨[], some e⟩, d)
    | .ok (d2, t) =>
      match d2.is_accepting_state t with
      | .error e => (⟨[], some e⟩, d2)
      | .ok isAcc =>
        if isAcc then
          match emit index t with
          | .error e => (⟨[], some e⟩, d2)
          | .ok m =>
            let (tail, dF) := searchLazy ff emit fuel d2 (index + 1) t rest
            (⟨m :: tail.ms, tail.error⟩, dF)
        else searchLazy ff emit fuel d2 (index + 1) t rest

/-! ## Single-pattern builder and matcher (kmp.py) -/

/-- Deduplicate a symbol list, keeping first occurrences: the membership
semantics of a Python `set` built from a string. -/
def symSet (l : List Sym) : List Sym := l.dedup

/-- `set(alphabets) if alphabets else set(pattern)`: an absent or empty
alphabet string falls back to the pattern's own symbols. -/
def kmpAlphabet (alphabets : Option (List Sym)) (pattern : List Sym) :
    List Sym :=
  match alphabets with
  | some l => if l.isEmpty then symSet pattern else symSet l
  | none => symSet pattern

/-- Bind the `add_state` call pattern used by the builders: propagate the
raised error, keep the mutated automaton otherwise. -/
def addStateM (d : DFA) (is_accepting is_initial : Bool) :
    Except String (DFA × Nat) :=
  match d.add_state is_accepting is_initial with
  | (d', .ok n) => .ok (d', n)
  | (_, .error e) => .error e

/-- The state/edge creation loop of `KMPMatcher._initialize_dfa`: for each
`(index, sym)` of the pattern, add state `index + 1` (accepting at the last
index, and requesting initial again at index 0 — which, thanks to the
truthiness guard, silently re-points the initial state) and the success edge
`index --sym--> index + 1`.  The recursion walks the suffix of the pattern
starting at `index`. -/
def kmpStatesLoop (pattern : List Sym) : DFA → Nat → List Sym →
    Except String DFA
  | d, _, [] => .ok d
  | d, index, sym :: rest => do
    let (d1, _) ← addStateM d (index == pattern.length - 1) (index == 0)
    let d2 ← d1.add_transition index sym (index + 1) .success
    kmpStatesLoop pattern d2 (index + 1) rest

/-- The root-completion loop of `_initialize_dfa` (precompute only): a
FAILURE self-loop on every alphabet symbol the root lacks.  The guard is the
Python truthiness test `if not dfa.transition(0, a)`. -/
def kmpInitRoot (alphabet : List Sym) (d : DFA) : Except String DFA :=
  alphabet.foldlM
    (fun d a =>
      if pyFalsy (d.transition 0 a) then d.add_transition 0 a 0 .failure
      else .ok d)
    d

/-- `KMPMatcher._initialize_dfa`. -/
def kmpInitializeDfa (compute_transitions : Bool) (alphabet : List Sym)
    (pattern : List Sym) : Except String DFA := do
  let d0 := DFA.empty alphabet
  let (d1, _) ← addStateM d0 (pattern.length == 0) true
  let d2 ← kmpStatesLoop pattern d1 0 pattern
  if compute_transitions then kmpInitRoot alphabet d2 else .ok d2

/-- The row-completion inner loop of `KMPMatcher.__init__` (precompute only):
fill every missing `(index, a)` transition from the row of
`fail_functions[index - 1]`, defaulting to the root. -/
def kmpFillRow (alphabet : List Sym) (index : Nat) (ff : List Nat)
    (d : DFA) : Except String DFA :=
  alphabet.foldlM
    (fun d a =>
      if !(d.has_transition index a) then do
        let f ← pyGet ff (index - 1)
        let to_state := (d.transition f a).getD 0
        d.add_transition index a to_state .failure
      else .ok d)
    d

/-- The fail-function loop of `KMPMatcher.__init__`, iterating `index` over
`range(1, len(pattern) + 1)`: optionally complete row `index`, then (for
`index < n`) set `fail_functions[index] =
dfa.transition(fail_functions[index-1], pattern[index]) or 0` — a single
step, with no chain-following. -/
def kmpFailLoop (compute_transitions : Bool) (alphabet : List Sym)
    (pattern : List Sym) : DFA → List Nat → List Nat →
    Except String (DFA × List Nat)
  | d, ff, [] => .ok (d, ff)
  | d, ff, index :: idxs => do
    let d' ← if compute_transitions then kmpFillRow alphabet index ff d
             else .ok d
    let ff' ←
      if index < pattern.length then do
        let f ← pyGet ff (index - 1)
        match pattern.get? index with
        | none => .error "IndexError"
        | some c => pySetI ff (index : Int) ((d'.transition f c).getD 0)
      else .ok ff
    kmpFailLoop compute_transitions alphabet pattern d' ff' idxs

/-- The single-pattern matcher: automaton, fail functions, pattern. -/
structure KMPMatcher where
  compute_transitions : Bool
  fail_functions : List Nat
  dfa : DFA
  pattern : List Sym
deriving DecidableEq, Repr

/-- `KMPMatcher.__init__`: reject the empty pattern, derive the alphabet,
build the automaton, then run the fail-function loop for `index` in
`[1, n]`. -/
def KMPMatcher.build (pattern : List Sym) (compute_transitions : Bool)
    (alphabets : Option (List Sym)) : Except String KMPMatcher := do
  if pattern.isEmpty then .error "ValueError: Empty pattern"
  else
    let alphabet := kmpAlphabet alphabets pattern
    let d ← kmpInitializeDfa compute_transitions alphabet pattern
    let ff0 := List.replicate pattern.length 0
    let (dF, ffF) ← kmpFailLoop compute_transitions alphabet pattern d ff0
      (List.range' 1 pattern.length)
    .ok ⟨compute_transitions, ffF, dF, pattern⟩

/-- The emitter of KMP searches: `(index - state + 1, self.pattern)`. -/
def kmpEmit (pattern : List Sym) : Emit :=
  fun index state => .ok ((index : Int) - (state : Int) + 1, pattern)

/-- `KMPMatcher.search`, run to exhaustion: precomputed walk or the lazy
walk of `search_lazy_transition`, returning the yields and the automaton
(as possibly mutated by lazy caching). -/
def KMPMatcher.searchRun (m : KMPMatcher) (fuel : Nat) (s : List Sym) :
    SearchOut × DFA :=
  if m.compute_transitions then
    (searchPre m.dfa (kmpEmit m.pattern) 0 0 s, m.dfa)
  else
    searchLazy m.fail_functions (kmpEmit m.pattern) fuel m.dfa 0 0 s

/-! ## Multi-pattern builder and matcher (ahocorasick.py) -/

/-- `alphabet_set_from_alphabets`: union of the patterns' symbols when no
alphabet is given (`if alphabets is None` — an *empty* explicit alphabet is
kept empty), else the given symbols. -/
def alphabet_set_from_alphabets (alphabets : Option (List Sym))
    (patterns : List (List Sym)) : List Sym :=
  match alphabets with
  | none => symSet patterns.flatten
  | some l => symSet l

/-- Dict update `m[k] = v`: rewrite an existing key in place, else append. -/
def dictSet {ν : Type} (m : List (Nat × ν)) (k : Nat) (v : ν) :
    List (Nat × ν) :=
  if (m.find? (fun p => p.1 == k)).isSome then
    m.map (fun p => if p.1 == k then (k, v) else p)
  else m ++ [(k, v)]

/-- Dict lookup `m.get(k)` / `m[k]`. -/
def dictGet {ν : Type} (m : List (Nat × ν)) (k : Nat) : Option ν :=
  (m.find? (fun p => p.1 == k)).map (fun p => p.2)

/-- `pattern_map.update(other)`: apply the other dict's entries in order. -/
def dictUpdate {ν : Type} (m other : List (Nat × ν)) : List (Nat × ν) :=
  other.foldl (fun acc p => dictSet acc p.1 p.2) m

/-- The walk of `_add_pattern`: follow existing transitions while the walrus
`(new_state := dfa.transition(state, pattern[i]))` stays truthy (both `None`
and state `0` are falsy and stop the walk).  Returns `(i, state, new_state)`
as left by the loop. -/
def addPatternWalk (d : DFA) : List Sym → Nat → Nat → Option Nat →
    Nat × Nat × Option Nat
  | [], i, state, new_state => (i, state, new_state)
  | c :: rest, i, state, _ =>
    match d.transition state c with
    | none => (i, state, none)
    | some 0 => (i, state, some 0)
    | some (k + 1) => addPatternWalk d rest (i + 1) (k + 1) (some (k + 1))

/-- The creation loop of `_add_pattern`, for `j` in `[i, len(pattern))`:
allocate a state (accepting at the final `j`), record the prefix
`pattern[:j]` for it in the map fragment, and add the success edge. -/
def addPatternCreate (pattern : List Sym) :
    DFA → List (Nat × List Sym) → Nat → Nat → List Sym →
    Except String (DFA × List (Nat × List Sym) × Nat)
  | d, pm, state, _, [] => .ok (d, pm, state)
  | d, pm, state, j, c :: rest => do
    let (d1, added) ← addStateM d (j == pattern.length - 1) false
    let pm1 := dictSet pm added (pattern.take j)
    let d2 ← d1.add_transition state c added .success
    addPatternCreate pattern d2 pm1 added (j + 1) rest

/-- `AhoCorasickMatcher._add_pattern`: walk the trie, then either create the
remaining suffix (recording prefixes, and finally overwriting the last
state's entry with the whole pattern), or — when the walk consumed the whole
pattern on existing edges — only mark the landing state accepting, leaving
the map fragment at `{0: ""}`. -/
def addPattern (d : DFA) (pattern : List Sym) :
    Except String (DFA × List (Nat × List Sym)) := do
  match d.initial_state with
  | none => .error "ValueError: DFA has no initial state"
  | some init =>
    let pm0 : List (Nat × List Sym) := [(0, [])]
    match addPatternWalk d pattern 0 init none with
    | (i, state, new_state) =>
      match new_state with
      | none => do
        let (d1, pm1, last) ← addPatternCreate pattern d pm0 state i
          (pattern.drop i)
        .ok (d1, dictSet pm1 last pattern)
      | some t =>
        if i == pattern.length then do
          let d1 ← d.set_accepting t true
          .ok (d1, pm0)
        else .ok (d, pm0)

/-- `AhoCorasickMatcher._initialize_root` (precompute only): FAILURE
self-loops at the root for the alphabet symbols it lacks (`is None` test). -/
def acInitializeRoot (compute_transitions : Bool) (alphabet : List Sym)
    (d : DFA) : Except String DFA :=
  if compute_transitions then
    alphabet.foldlM
      (fun d a =>
        match d.transition 0 a with
        | none => d.add_transition 0 a 0 .failure
        | some _ => .ok d)
      d
  else .ok d

/-- The per-pattern loop of `_initialize_dfa`: one `_add_pattern` call per
pattern, merging the returned map fragments into the accumulated map. -/
def acPatternsFold (patterns : List (List Sym))
    (acc : DFA × List (Nat × List Sym)) :
    Except String (DFA × List (Nat × List Sym)) :=
  patterns.foldlM
    (fun (acc : DFA × List (Nat × List Sym)) p => do
      let (d', frag) ← addPattern acc.1 p
      .ok (d', dictUpdate acc.2 frag))
    acc

/-- `AhoCorasickMatcher._initialize_dfa`: root state, one `_add_pattern`
fold per pattern (merging map fragments), then root completion. -/
def acInitializeDfa (compute_transitions : Bool) (alphabet : List Sym)
    (patterns : List (List Sym)) :
    Except String (DFA × List (Nat × List Sym)) := do
  let d0 := DFA.empty alphabet
  let (d1, _) ← addStateM d0 false true
  let (d2, pm) ← acPatternsFold patterns (d1, ([] : List (Nat × List Sym)))
  let d3 ← acInitializeRoot compute_transitions alphabet d2
  .ok (d3, pm)

/-- `AhoCorasickMatcher._initialize_top_level` (precompute only): for a root
child reached on `sym`, fill every missing symbol with a FAILURE edge — a
self-loop on `sym`, the root otherwise.  The guard is Python truthiness. -/
def acTopLevel (compute_transitions : Bool) (alphabet : List Sym)
    (sym : Sym) (index : Nat) (d : DFA) : Except String DFA :=
  if compute_transitions then
    alphabet.foldlM
      (fun d a =>
        if pyFalsy (d.transition index a) then
          d.add_transition index a (if sym == a then index else 0) .failure
        else .ok d)
      d
  else .ok d

/-- `precompute_possible_transitions`: fill every missing `(index, a)` from
the row of `fail_functions[index - 1]`; a missing source entry there is the
fatal `ValueError`. -/
def precompute_possible_transitions (d : DFA) (index : Nat)
    (alphabet : List Sym) (ff : List Nat) : Except String DFA :=
  alphabet.foldlM
    (fun d a =>
      match d.transition index a with
      | none => do
        let f ← pyGet ff (index - 1)
        match d.transition f a with
        | none => .error "ValueError: Invalid transition"
        | some to_state => d.add_transition index a to_state .failure
      | some _ => .ok d)
    d

/-- One iteration of the BFS fold in `AhoCorasickMatcher.__init__`: root
children get the top-level special case; deeper children get
`fail_functions[index-1] = dfa.transition(fail_functions[parent-1], sym)
or 0` (again a single step with no chain) and, when precomputing, a
completed row. -/
def acStep (compute_transitions : Bool) (alphabet : List Sym)
    (acc : DFA × List Nat) (e : Edge) : Except String (DFA × List Nat) := do
  let (d, ff) := acc
  let (parent, sym, index) := e
  if parent == 0 then do
    let d' ← acTopLevel compute_transitions alphabet sym index d
    .ok (d', ff)
  else do
    let f ← pyGet ff (parent - 1)
    let ff' ← pySetI ff ((index : Int) - 1) ((d.transition f sym).getD 0)
    let d' ← if compute_transitions then
        precompute_possible_transitions d index alphabet ff'
      else .ok d
    .ok (d', ff')

/-- The multi-pattern matcher: automaton, fail functions, pattern map. -/
structure AhoCorasickMatcher where
  compute_transitions : Bool
  dfa : DFA
  fail_functions : List Nat
  pattern_map : List (Nat × List Sym)
deriving DecidableEq, Repr

/-- `AhoCorasickMatcher.__init__`: reject an empty pattern list and empty
patterns, build the trie, then fold `acStep` over the materialized
`bfs_traverse` edge list. -/
def AhoCorasickMatcher.build (patterns : List (List Sym))
    (compute_transitions : Bool) (alphabets : Option (List Sym)) :
    Except String AhoCorasickMatcher := do
  if patterns.isEmpty then .error "ValueError: No patterns to match"
  else if patterns.any (fun p => p.isEmpty) then
    .error "ValueError: Empty patterns"
  else
    let alphabet := alphabet_set_from_alphabets alphabets patterns
    let (d0, pm) ← acInitializeDfa compute_transitions alphabet patterns
    let ff0 := List.replicate d0.n_states 0
    let edges ← d0.bfs_traverse
    let (dF, ffF) ← edges.foldlM (acStep compute_transitions alphabet) (d0, ff0)
    .ok ⟨compute_transitions, dF, ffF, pm⟩

/-- The emitter of Aho-Corasick searches: `pattern = self.pattern_map[state]`
(a `KeyError` when absent) and `(index - len(pattern) + 1, pattern)`. -/
def acEmit (pm : List (Nat × List Sym)) : Emit :=
  fun index state =>
    match dictGet pm state with
    | none => .error "KeyError"
    | some pattern => .ok ((index : Int) - (pattern.length : Int) + 1, pattern)

/-- `AhoCorasickMatcher.search`, run to exhaustion: the same two walks as
KMP, with the pattern-map emitter. -/
def AhoCorasickMatcher.searchRun (m : AhoCorasickMatcher) (fuel : Nat)
    (s : List Sym) : SearchOut × DFA :=
  if m.compute_transitions then
    (searchPre m.dfa (acEmit m.pattern_map) 0 0 s, m.dfa)
  else
    searchLazy m.fail_functions (acEmit m.pattern_map) fuel m.dfa 0 0 s

/-! ## Persistence (dfa.py to_dict/from_dict, stringsapp.py save/load) -/

/-- The flat record produced by `DFA.to_dict`: state keys are stringified,
transition kinds become their string values, and the alphabet and accepting
set are listed. -/
structure DFADict where
  states : Option Nat
  alphabets : List Sym
  transitions : List (String × List (Sym × Nat))
  transition_types : List (String × List (Sym × String))
  initial_state : Option Nat
  accepting_states : List Nat
deriving DecidableEq, Repr

/-- `DFA.to_dict`. -/
def DFA.to_dict (d : DFA) : DFADict :=
  { states := d.states,
    alphabets := d.alphabets,
    transitions := d.transitions.map
      (fun p => (toString p.1, p.2.map (fun q => (q.1, q.2.1)))),
    transition_types := d.transitions.map
      (fun p => (toString p.1, p.2.map (fun q => (q.1, q.2.2.value)))),
    initial_state := d.initial_state,
    accepting_states := d.accepting_states }

/-- Python `int(s)` on the stringified state keys written by `to_dict`:
those are plain digit strings, parsed back to the integer (anything else
raises `ValueError`). -/
def pyInt (s : String) : Except String Nat :=
  let ds := s.data
  if ds.isEmpty then .error "ValueError: invalid literal for int"
  else if ds.all (fun c => c.isDigit) then
    .ok (ds.foldl (fun acc c => 10 * acc + (c.toNat - Char.toNat (Char.ofNat 48))) 0)
  else .error "ValueError: invalid literal for int"

/-- `DFA.from_dict`: parse the stringified state keys back to integers and
rebuild the table.  The source restores `transitions` and `transition_types`
as two separate dicts; the fused representation pairs each restored edge
with its recorded kind (defaulting to SUCCESS when the kinds record lacks
the entry — `get_transition_type`, the only reader that could tell the
difference, is never called by the builders or searches). -/
def DFA.from_dict (r : DFADict) : Except String DFA := do
  let trans ← r.transitions.mapM (fun p => do
    let st ← pyInt p.1
    let tts := ((r.transition_types.find? (fun z => z.1 == p.1)).map
      (fun z => z.2)).getD []
    let row ← p.2.mapM (fun q => do
      let tt ← match (tts.find? (fun z => z.1 == q.1)).map (fun z => z.2) with
        | some v => TransitionType.ofValue v
        | none => Except.ok TransitionType.success
      Except.ok ((q.1, q.2, tt) : Sym × Nat × TransitionType))
    Except.ok ((st, row) : Nat × Row))
  .ok { states := r.states, alphabets := r.alphabets, transitions := trans,
        initial_state := r.initial_state,
        accepting_states := r.accepting_states }

/-- The `"algorithm": "kmp"` envelope written by `build_dfa`. -/
structure KMPRecord where
  pattern : List Sym
  dfa : DFADict
  fail_functions : List Nat
deriving DecidableEq, Repr

/-- The kmp branch of `build_dfa`: serialize a built single-pattern matcher. -/
def KMPMatcher.serialize (m : KMPMatcher) : KMPRecord :=
  ⟨m.pattern, m.dfa.to_dict, m.fail_functions⟩

/-- The matcher produced by the kmp branch of `load_matcher_from_file`:
`KMPMatcher.__new__` is given `dfa`, `compute_transitions` and
`fail_functions` — the `pattern` attribute is never assigned. -/
structure KMPLoaded where
  compute_transitions : Bool
  dfa : DFA
  fail_functions : List Nat
deriving DecidableEq, Repr

/-- The kmp branch of `load_matcher_from_file`. -/
def loadKmpMatcher (r : KMPRecord) (precompute : Bool) :
    Except String KMPLoaded := do
  let d ← DFA.from_dict r.dfa
  .ok ⟨precompute, d, r.fail_functions⟩

/-- Reading `self.pattern` on a loaded single-pattern matcher raises
`AttributeError` (the attribute was never assigned). -/
def kmpLoadedEmit : Emit := fun _ _ => .error "AttributeError: pattern"

/-- `search` on a loaded single-pattern matcher: the precomputed walk reads
`self.pattern` only when it emits a match; the on-the-fly branch passes
`self.pattern` to `search_lazy_transition` up front and so raises before
yielding anything. -/
def KMPLoaded.searchRun (m : KMPLoaded) (fuel : Nat) (s : List Sym) :
    SearchOut × DFA :=
  if m.compute_transitions then
    (searchPre m.dfa kmpLoadedEmit 0 0 s, m.dfa)
  else
    let _ := fuel
    (⟨[], some "AttributeError: pattern"⟩, m.dfa)

/-- The `"algorithm": "aho-corasick"` envelope written by `build_dfa`. -/
structure ACRecord where
  patterns : List (List Sym)
  dfa : DFADict
  fail_functions : List Nat
  pattern_map : List (String × List Sym)
deriving DecidableEq, Repr

/-- The aho-corasick branch of `build_dfa`: serialize a built multi-pattern
matcher (stringifying the pattern-map keys). -/
def AhoCorasickMatcher.serialize (patterns : List (List Sym))
    (m : AhoCorasickMatcher) : ACRecord :=
  ⟨patterns, m.dfa.to_dict, m.fail_functions,
   m.pattern_map.map (fun p => (toString p.1, p.2))⟩

/-- The aho-corasick branch of `load_matcher_from_file`: restores all four
attributes, parsing pattern-map keys back to integers. -/
def loadAcMatcher (r : ACRecord) (precompute : Bool) :
    Except String AhoCorasickMatcher := do
  let d ← DFA.from_dict r.dfa
  let pm ← r.pattern_map.mapM (fun p => do
    let k ← pyInt p.1
    Except.ok ((k, p.2) : Nat × List Sym))
  .ok ⟨precompute, d, r.fail_functions, pm⟩

/-! ## Specification-side notions used to judge the claims -/

/-- Shorthand: the symbol list of a string literal. -/
def strL (s : String) : List Sym := s.data

/-- Whether pattern `p` occurs in text `t` starting at position `pos`. -/
def occursAt (t : List Sym) (pos : Nat) (p : List Sym) : Bool :=
  ((t.drop pos).take p.length) == p

/-- Whether `k` is the length of a proper border of the length-`i` prefix of
`p`: a proper prefix of `P[0..i-1]` that is also a suffix of it. -/
def isBorder (p : List Sym) (i k : Nat) : Bool :=
  decide (k < i) && ((p.take i).take k == (p.take i).drop (i - k))

/-- The classical prefix function: the length of the longest proper prefix
of `P[0..i-1]` that is also a suffix of it. -/
def prefixFun (p : List Sym) (i : Nat) : Nat :=
  ((List.range i).filter (fun k => isBorder p i k)).foldl max 0

/-- Lookup-preserving evolution of an automaton, as effected by the caching
of on-the-fly search: every recorded transition stays recorded with the same
target, while the state count, accepting set and alphabet are untouched. -/
structure DLE (d d' : DFA) : Prop where
  mono : ∀ s a v, d.transition s a = some v → d'.transition s a = some v
  states_eq : d'.states = d.states
  acc_eq : d'.accepting_states = d.accepting_states
  alph_eq : d'.alphabets = d.alphabets

/-- Completeness of a built automaton: a defined transition for every
allocated state and every alphabet symbol (the §3 invariant for precomputed
construction). -/
def DFA.completeb (d : DFA) : Bool :=
  (List.range d.n_states).all
    (fun st => d.alphabets.all (fun a => (d.transition st a).isSome))

/-- Every recorded transition stays within the allocated state range.  This
holds for every automaton assembled through `add_state`/`add_transition`,
because `add_transition` validates its endpoints. -/
def WFtrans (d : DFA) : Prop :=
  ∀ s a v, d.transition s a = some v → ∃ mx, d.states = some mx ∧ v ≤ mx

/-- States reachable from state 0 along recorded transitions. -/
inductive ReachSt (d : DFA) : Nat → Prop where
  | init : ReachSt d 0
  | step {u : Nat} {c : Sym} {v : Nat} :
      ReachSt d u → d.transition u c = some v → ReachSt d v

/-- Every allocated state is reachable from state 0 — the trie produced by
`_initialize_dfa` has this shape. -/
def AllReach (d : DFA) : Prop :=
  ∀ mx, d.states = some mx → ∀ v, v ≤ mx → ReachSt d v

/-- The key lists of the transition table are duplicate-free, as Python
dicts guarantee: distinct outer state keys, distinct symbols in each row. -/
def RowsNodup (d : DFA) : Prop :=
  (d.transitions.map (fun p => p.1)).Nodup ∧
  ∀ p ∈ d.transitions, (p.2.map (fun q => q.1)).Nodup

/-- All recorded edges, flattened. -/
def allEdges (d : DFA) : List Edge :=
  d.transitions.flatMap (fun p => p.2.map (fun q => (p.1, q.1, q.2.1)))

/-- A concrete precomputed single-pattern matcher, pattern "AB". -/
def c6KmpM : KMPMatcher :=
  ((KMPMatcher.build (strL "AB") true none).toOption).getD
    ⟨true, [], DFA.empty [], []⟩

/-- A concrete precomputed multi-pattern matcher, patterns ["AB", "B"]. -/
def c6AcM : AhoCorasickMatcher :=
  ((AhoCorasickMatcher.build [strL "AB", strL "B"] true none).toOption).getD
    ⟨true, DFA.empty [], [], []⟩

/-! ## Support lemmas: caching only grows the transition table -/

theorem dle_refl (d : DFA) : DLE d d :=
  ⟨fun _ _ _ h => h, rfl, rfl, rfl⟩

theorem dle_trans {a b c : DFA} (h1 : DLE a b) (h2 : DLE b c) : DLE a c :=
  ⟨fun s x v hv => h2.mono s x v (h1.mono s x v hv),
   h2.states_eq.trans h1.states_eq,
   h2.acc_eq.trans h1.acc_eq,
   h2.alph_eq.trans h1.alph_eq⟩

theorem transition_eq (d : DFA) (s : Nat) (a : Sym) :
    d.transition s a = (d.transitions.find? (fun p => p.1 == s)).bind
      (fun p => (p.2.find? (fun q => q.1 == a)).map (fun q => q.2.1)) := by
  unfold DFA.transition DFA.findRow
  cases d.transitions.find? (fun p => p.1 == s) <;> simp

theorem find?_key_map {l : List (Nat × Row)} {g : Nat × Row → Nat × Row}
    (hg : ∀ x, (g x).1 = x.1) (s : Nat) :
    (l.map g).find? (fun p => p.1 == s) =
      Option.map g (l.find? (fun p => p.1 == s)) := by
  rw [List.find?_map]
  have hp : ((fun p : Nat × Row => p.1 == s) ∘ g) =
      fun p : Nat × Row => p.1 == s := by
    funext x
    simp [Function.comp, hg]
  rw [hp]

theorem add_transition_ok_cases {d : DFA} {f : Nat} {c : Sym} {t : Nat}
    {tt : TransitionType} {d' : DFA}
    (h : d.add_transition f c t tt = .ok d') :
    (d.findRow f = none ∧
      d' = { d with transitions := d.transitions ++ [(f, [(c, t, tt)])] }) ∨
    (∃ row, d.findRow f = some row ∧
      row.find? (fun q => q.1 == c) = none ∧
      d' = { d with transitions := d.transitions.map (fun p =>
        if p.1 == f then (p.1, p.2 ++ [(c, t, tt)]) else p) }) := by
  unfold DFA.add_transition at h
  split at h
  · exact Except.noConfusion h
  · split at h
    · exact Except.noConfusion h
    · split at h
      · exact Except.noConfusion h
      · split at h
        · exact Except.noConfusion h
        · split at h
          · rename_i hrow
            left
            injection h with h'
            exact ⟨hrow, h'.symm⟩
          · rename_i row hrow
            split at h
            · exact Except.noConfusion h
            · rename_i hfree
              right
              injection h with h'
              refine ⟨row, hrow, ?_, h'.symm⟩
              cases hq : row.find? (fun q => q.1 == c) with
              | none => rfl
              | some q =>
                rw [hq] at hfree
                simp at hfree

theorem add_transition_mono {d : DFA} {f : Nat} {c : Sym} {t : Nat}
    {tt : TransitionType} {d' : DFA}
    (h : d.add_transition f c t tt = .ok d') (s : Nat) (a : Sym) (v : Nat)
    (hv : d.transition s a = some v) : d'.transition s a = some v := by
  rcases add_transition_ok_cases h with ⟨hrow, rfl⟩ | ⟨row, hrow, hfree, rfl⟩
  · rw [transition_eq] at hv ⊢
    simp only [List.find?_append]
    cases hf : d.transitions.find? (fun p => p.1 == s) with
    | none => rw [hf] at hv; simp at hv
    | some p =>
      rw [hf] at hv
      simpa [Option.or] using hv
  · rw [transition_eq] at hv ⊢
    simp only []
    rw [find?_key_map (fun x => by by_cases hx : x.1 == f <;> simp [hx]) s]
    cases hf : d.transitions.find? (fun p => p.1 == s) with
    | none => rw [hf] at hv; simp at hv
    | some p =>
      rw [hf] at hv
      simp only [Option.map_some', Option.some_bind] at hv ⊢
      by_cases hp : p.1 == f
      · simp only [hp, if_true]
        rw [List.find?_append]
        cases hq : p.2.find? (fun q => q.1 == a) with
        | none => rw [hq] at hv; simp at hv
        | some q =>
          rw [hq] at hv
          simpa [Option.or] using hv
      · simp only [hp, if_false]
        exact hv

theorem add_transition_lookup {d : DFA} {f : Nat} {c : Sym} {t : Nat}
    {tt : TransitionType} {d' : DFA}
    (h : d.add_transition f c t tt = .ok d') :
    d'.transition f c = some t := by
  rcases add_transition_ok_cases h with ⟨hrow, rfl⟩ | ⟨row, hrow, hfree, rfl⟩
  · rw [transition_eq]
    have hf : d.transitions.find? (fun p => p.1 == f) = none := by
      unfold DFA.findRow at hrow
      exact Option.map_eq_none'.mp hrow
    rw [List.find?_append, hf]
    simp [Option.or]
  · rw [transition_eq]
    rw [find?_key_map (fun x => by by_cases hx : x.1 == f <;> simp [hx]) f]
    unfold DFA.findRow at hrow
    rcases Option.map_eq_some'.mp hrow with ⟨p, hfp, hp2⟩
    have hpf : (p.1 == f) = true := by
      have := List.find?_some hfp
      simpa using this
    rw [hfp]
    simp only [Option.map_some', Option.some_bind, hpf, if_true]
    rw [hp2, List.find?_append, hfree]
    simp [Option.or]

theorem add_transition_fields {d : DFA} {f : Nat} {c : Sym} {t : Nat}
    {tt : TransitionType} {d' : DFA}
    (h : d.add_transition f c t tt = .ok d') :
    d'.states = d.states ∧ d'.accepting_states = d.accepting_states ∧
      d'.alphabets = d.alphabets := by
  rcases add_transition_ok_cases h with ⟨_, rfl⟩ | ⟨row, _, _, rfl⟩ <;>
    exact ⟨rfl, rfl, rfl⟩

theorem add_transition_dle {d : DFA} {f : Nat} {c : Sym} {t : Nat}
    {tt : TransitionType} {d' : DFA}
    (h : d.add_transition f c t tt = .ok d') : DLE d d' :=
  ⟨fun s a v hv => add_transition_mono h s a v hv,
   (add_transition_fields h).1, (add_transition_fields h).2.1,
   (add_transition_fields h).2.2⟩

theorem is_accepting_congr {d d' : DFA} (h : DLE d d') (s : Nat) :
    d'.is_accepting_state s = d.is_accepting_state s := by
  unfold DFA.is_accepting_state
  rw [h.states_eq, h.acc_eq]

theorem resolveLazy_ok {ff : List Nat} {fuel : Nat} {d : DFA} {st : Nat}
    {c : Sym} {d2 : DFA} {t : Nat}
    (h : resolveLazy ff fuel d st c = .ok (d2, t)) :
    DLE d d2 ∧ d2.transition st c = some t := by
  unfold resolveLazy at h
  cases hl : d.transition st c with
  | some u =>
    simp only [hl] at h
    injection h with h'
    cases h'
    exact ⟨dle_refl d, hl⟩
  | none =>
    simp only [hl, bind, Except.bind] at h
    cases hchain : failChain d ff c (if st > 0 then st - 1 else 0) fuel with
    | error e =>
      rw [hchain] at h
      exact Except.noConfusion h
    | ok ts =>
      simp only [hchain] at h
      cases hadd : d.add_transition st c ts .failure with
      | error e =>
        simp only [hadd] at h
        exact Except.noConfusion h
      | ok dd =>
        simp only [hadd] at h
        injection h with h'
        cases h'
        exact ⟨add_transition_dle hadd, add_transition_lookup hadd⟩

theorem searchLazy_dle (ff : List Nat) (emit : Emit) (fuel : Nat) :
    ∀ (rest : List Sym) (d : DFA) (i st : Nat),
      DLE d (searchLazy ff emit fuel d i st rest).2 := by
  intro rest
  induction rest with
  | nil =>
    intro d i st
    exact dle_refl d
  | cons c rest ih =>
    intro d i st
    cases hres : resolveLazy ff fuel d st c with
    | error e =>
      simp only [searchLazy, hres]
      exact dle_refl d
    | ok pr =>
      obtain ⟨d2, t⟩ := pr
      obtain ⟨hdle, hlook⟩ := resolveLazy_ok hres
      cases hacc : d2.is_accepting_state t with
      | error e =>
        simp only [searchLazy, hres, hacc]
        exact hdle
      | ok b =>
        cases hb : b with
        | false =>
          simp only [searchLazy, hres, hacc, hb, Bool.false_eq_true, if_false]
          exact dle_trans hdle (ih d2 (i + 1) t)
        | true =>
          cases hemit : emit i t with
          | error e =>
            simp only [searchLazy, hres, hacc, hb, if_true, hemit]
            exact hdle
          | ok m =>
            rcases hr : searchLazy ff emit fuel d2 (i + 1) t rest with ⟨tail, dT⟩
            have hT := ih d2 (i + 1) t
            rw [hr] at hT
            simp only [searchLazy, hres, hacc, hb, if_true, hemit, hr]
            exact dle_trans hdle hT

theorem searchLazy_fix (ff : List Nat) (emit : Emit) (fuel : Nat) :
    ∀ (rest : List Sym) (d : DFA) (i st : Nat),
      searchLazy ff emit fuel (searchLazy ff emit fuel d i st rest).2 i st rest
        = searchLazy ff emit fuel d i st rest := by
  intro rest
  induction rest with
  | nil =>
    intro d i st
    rfl
  | cons c rest ih =>
    intro d i st
    cases hres : resolveLazy ff fuel d st c with
    | error e =>
      simp only [searchLazy, hres]
    | ok pr =>
      obtain ⟨d2, t⟩ := pr
      obtain ⟨hdle, hlook⟩ := resolveLazy_ok hres
      have hdirect : ∀ dX, dX.transition st c = some t →
          resolveLazy ff fuel dX st c = .ok (dX, t) := by
        intro dX hX
        unfold resolveLazy
        simp only [hX]
      cases hacc : d2.is_accepting_state t with
      | error e =>
        have h2 : resolveLazy ff fuel d2 st c = .ok (d2, t) := hdirect d2 hlook
        simp only [searchLazy, hres, hacc, h2]
      | ok b =>
        cases hb : b with
        | false =>
          rcases hr : searchLazy ff emit fuel d2 (i + 1) t rest with ⟨tail, dT⟩
          have hT : DLE d2 dT := by
            have := searchLazy_dle ff emit fuel rest d2 (i + 1) t
            rw [hr] at this
            exact this
          have h2 : resolveLazy ff fuel dT st c =
              .ok (dT, t) := hdirect dT (hT.mono st c t hlook)
          have hacc2 : dT.is_accepting_state t = .ok b := by
            rw [is_accepting_congr hT, hacc]
          have hfix := ih d2 (i + 1) t
          rw [hr] at hfix
          simp only [searchLazy, hres, hacc, hb, Bool.false_eq_true, if_false,
            hr, h2, hacc2, hfix]
        | true =>
          cases hemit : emit i t with
          | error e =>
            have h2 : resolveLazy ff fuel d2 st c = .ok (d2, t) :=
              hdirect d2 hlook
            simp only [searchLazy, hres, hacc, hb, if_true, hemit, h2]
          | ok m =>
            rcases hr : searchLazy ff emit fuel d2 (i + 1) t rest with ⟨tail, dT⟩
            have hT : DLE d2 dT := by
              have := searchLazy_dle ff emit fuel rest d2 (i + 1) t
              rw [hr] at this
              exact this
            have h2 : resolveLazy ff fuel dT st c =
                .ok (dT, t) := hdirect dT (hT.mono st c t hlook)
            have hacc2 : dT.is_accepting_state t = .ok b := by
              rw [is_accepting_congr hT, hacc]
            have hfix := ih d2 (i + 1) t
            rw [hr] at hfix
            simp only [searchLazy, hres, hacc, hb, if_true, hemit, hr, h2,
              hacc2, hfix]

/-! ## Support lemmas: builder invariants -/

theorem transition_ext {d d' : DFA} (h : d'.transitions = d.transitions)
    (s : Nat) (a : Sym) : d'.transition s a = d.transition s a := by
  unfold DFA.transition DFA.findRow
  rw [h]

theorem dle_isSome {d d' : DFA} (h : DLE d d') {s : Nat} {a : Sym}
    (hs : (d.transition s a).isSome) : (d'.transition s a).isSome := by
  obtain ⟨v, hv⟩ := Option.isSome_iff_exists.mp hs
  rw [h.mono s a v hv]
  rfl

theorem add_transition_initial {d : DFA} {f : Nat} {c : Sym} {t : Nat}
    {tt : TransitionType} {d' : DFA}
    (h : d.add_transition f c t tt = .ok d') :
    d'.initial_state = d.initial_state := by
  rcases add_transition_ok_cases h with ⟨_, rfl⟩ | ⟨row, _, _, rfl⟩ <;> rfl

theorem add_transition_ok_bounds {d : DFA} {f : Nat} {c : Sym} {t : Nat}
    {tt : TransitionType} {d' : DFA}
    (h : d.add_transition f c t tt = .ok d') :
    ∃ mx, d.states = some mx ∧ f ≤ mx ∧ t ≤ mx ∧
      d.alphabets.contains c = true := by
  unfold DFA.add_transition at h
  split at h
  · exact Except.noConfusion h
  · rename_i mx hs
    split at h
    · exact Except.noConfusion h
    · rename_i h1
      split at h
      · exact Except.noConfusion h
      · rename_i h2
        split at h
        · exact Except.noConfusion h
        · rename_i h3
          refine ⟨mx, hs, by omega, by omega, ?_⟩
          simpa using h3

theorem add_transition_lookup_inv {d : DFA} {f : Nat} {c : Sym} {t : Nat}
    {tt : TransitionType} {d' : DFA}
    (h : d.add_transition f c t tt = .ok d') (s : Nat) (a : Sym) (v : Nat)
    (hv : d'.transition s a = some v) :
    d.transition s a = some v ∨ (s = f ∧ a = c ∧ v = t) := by
  rcases add_transition_ok_cases h with ⟨hrow, rfl⟩ | ⟨row, hrow, hfree, rfl⟩
  · rw [transition_eq] at hv ⊢
    rw [List.find?_append] at hv
    cases hf : d.transitions.find? (fun p => p.1 == s) with
    | some p =>
      rw [hf] at hv
      left
      simpa [Option.or] using hv
    | none =>
      rw [hf] at hv
      simp only [Option.none_or] at hv
      by_cases hfs : (f == s) = true
      · simp only [List.find?, hfs, Option.some_bind] at hv
        by_cases hca : (c == a) = true
        · simp only [List.find?, hca, Option.map_some'] at hv
          injection hv with hv'
          right
          exact ⟨(beq_iff_eq.mp hfs).symm, (beq_iff_eq.mp hca).symm, hv'.symm⟩
        · simp only [List.find?, hca] at hv
          exact Option.noConfusion hv
      · simp only [List.find?, hfs] at hv
        exact Option.noConfusion hv
  · rw [transition_eq] at hv ⊢
    rw [find?_key_map (fun x => by by_cases hx : x.1 == f <;> simp [hx]) s]
      at hv
    cases hf : d.transitions.find? (fun p => p.1 == s) with
    | none =>
      rw [hf] at hv
      exact Option.noConfusion hv
    | some p =>
      rw [hf] at hv
      simp only [Option.map_some', Option.some_bind] at hv ⊢
      by_cases hp : (p.1 == f) = true
      · simp only [hp, if_true] at hv
        rw [List.find?_append] at hv
        cases hq : p.2.find? (fun q => q.1 == a) with
        | some q =>
          rw [hq] at hv
          left
          simpa [Option.or] using hv
        | none =>
          rw [hq] at hv
          simp only [Option.none_or] at hv
          by_cases hca : (c == a) = true
          · simp only [List.find?, hca, Option.map_some'] at hv
            injection hv with hv'
            right
            have hps : (p.1 == s) = true := by
              have := List.find?_some hf
              simpa using this
            have hsf : s = f := by
              have h1 := beq_iff_eq.mp hps
              have h2 := beq_iff_eq.mp hp
              omega
            exact ⟨hsf, (beq_iff_eq.mp hca).symm, hv'.symm⟩
          · simp only [List.find?, hca] at hv
            exact Option.noConfusion hv
      · simp only [hp, if_false] at hv
        left
        exact hv

theorem wftrans_add_transition {d : DFA} {f : Nat} {c : Sym} {t : Nat}
    {tt : TransitionType} {d' : DFA}
    (h : d.add_transition f c t tt = .ok d') (hw : WFtrans d) :
    WFtrans d' := by
  intro s a v hv
  obtain ⟨mx, hmx, hf, ht, _⟩ := add_transition_ok_bounds h
  have hst : d'.states = d.states := (add_transition_fields h).1
  rcases add_transition_lookup_inv h s a v hv with hold | ⟨_, _, rfl⟩
  · obtain ⟨mx', hmx', hv'⟩ := hw s a v hold
    exact ⟨mx', hst ▸ hmx', hv'⟩
  · exact ⟨mx, hst ▸ hmx, ht⟩

theorem addStateM_ok {d : DFA} {acc init : Bool} {d' : DFA} {n : Nat}
    (h : addStateM d acc init = .ok (d', n)) :
    d'.transitions = d.transitions ∧ d'.alphabets = d.alphabets ∧
    d'.states = some n ∧
    (d.states = none → n = 0) ∧ (∀ k, d.states = some k → n = k + 1) ∧
    (init = false → d'.initial_state = d.initial_state) := by
  simp only [addStateM, DFA.add_state] at h
  by_cases hg : (init && initialTruthy d.initial_state) = true
  · simp [hg] at h
  · rw [Bool.not_eq_true] at hg
    simp only [hg, Bool.false_eq_true, if_false] at h
    injection h with h'
    have hd := congrArg Prod.fst h'
    have hn := congrArg Prod.snd h'
    simp only [] at hd hn
    subst hn
    subst hd
    refine ⟨?_, ?_, ?_, ?_, ?_, ?_⟩
    · cases init <;> cases acc <;> rfl
    · cases init <;> cases acc <;> rfl
    · cases init <;> cases acc <;> rfl
    · intro hnone
      rw [hnone]
    · intro k hk
      rw [hk]
    · intro hinit
      subst hinit
      cases acc <;> rfl

theorem set_accepting_true_ok {d : DFA} {s : Nat} {d' : DFA}
    (h : d.set_accepting s true = .ok d') :
    d'.transitions = d.transitions ∧ d'.alphabets = d.alphabets ∧
    d'.states = d.states ∧ d'.initial_state = d.initial_state := by
  unfold DFA.set_accepting at h
  simp only [if_true] at h
  injection h with h'
  subst h'
  exact ⟨rfl, rfl, rfl, rfl⟩

theorem nodup_subset_length {α : Type} [DecidableEq α] {l l' : List α}
    (hn : l.Nodup) (hs : l ⊆ l') : l.length ≤ l'.length := by
  have h1 : l.toFinset.card = l.length := List.toFinset_card_of_nodup hn
  have h2 : l.toFinset ⊆ l'.toFinset := by
    intro x hx
    simp only [List.mem_toFinset] at hx ⊢
    exact hs hx
  have h3 := Finset.card_le_card h2
  have h4 := l'.toFinset_card_le
  omega

theorem pyFalsy_false_isSome {o : Option Nat} (h : pyFalsy o = false) :
    o.isSome := by
  cases o with
  | none => simp [pyFalsy] at h
  | some k => cases k with
    | zero => simp [pyFalsy] at h
    | succ _ => rfl

theorem empty_transitions_none {d : DFA} (h : d.transitions = [])
    (s : Nat) (a : Sym) : d.transition s a = none := by
  unfold DFA.transition DFA.findRow
  rw [h]
  rfl

theorem wftrans_addStateM {d : DFA} {acc init : Bool} {d' : DFA} {n : Nat}
    (h : addStateM d acc init = .ok (d', n)) (hw : WFtrans d) :
    WFtrans d' := by
  obtain ⟨htr, _, hst, _, hsucc, _⟩ := addStateM_ok h
  intro s a v hv
  rw [transition_ext htr] at hv
  obtain ⟨mx, hmx, hvle⟩ := hw s a v hv
  refine ⟨n, hst, ?_⟩
  have := hsucc mx hmx
  omega

/-- A step of the row-completion folds: conditionally add one transition.
This generic lemma covers all five completion loops of the two builders. -/
theorem foldCompl {st : Nat} {step : DFA → Sym → Except String DFA}
    (hdle : ∀ d a d', step d a = .ok d' → DLE d d')
    (hwf : ∀ d a d', step d a = .ok d' → WFtrans d → WFtrans d')
    (hpost : ∀ d a d', step d a = .ok d' → (d'.transition st a).isSome) :
    ∀ (l : List Sym) (d d' : DFA), l.foldlM step d = .ok d' →
      DLE d d' ∧ (WFtrans d → WFtrans d') ∧
      ∀ a ∈ l, (d'.transition st a).isSome := by
  intro l
  induction l with
  | nil =>
    intro d d' h
    rw [List.foldlM_nil] at h
    injection h with h'
    subst h'
    exact ⟨dle_refl d, fun hw => hw, fun a ha => absurd ha (List.not_mem_nil a)⟩
  | cons a l ih =>
    intro d d' h
    rw [List.foldlM_cons] at h
    cases hs : step d a with
    | error e =>
      simp only [hs, bind, Except.bind] at h
      exact Except.noConfusion h
    | ok d1 =>
      simp only [hs, bind, Except.bind] at h
      obtain ⟨hd1, hw1, hp⟩ := ih d1 d' h
      refine ⟨dle_trans (hdle d a d1 hs) hd1,
        fun hw => hw1 (hwf d a d1 hs hw), ?_⟩
      intro b hb
      rcases List.mem_cons.mp hb with rfl | hbl
      · exact dle_isSome hd1 (hpost d b d1 hs)
      · exact hp b hbl

theorem kmpInitRoot_spec {alph : List Sym} {d d' : DFA}
    (h : kmpInitRoot alph d = .ok d') :
    DLE d d' ∧ (WFtrans d → WFtrans d') ∧
    ∀ a ∈ alph, (d'.transition 0 a).isSome := by
  refine foldCompl ?_ ?_ ?_ alph d d' h
  · intro d a d' hs
    by_cases hg : pyFalsy (d.transition 0 a) = true
    · simp only [hg, if_true] at hs
      exact add_transition_dle hs
    · rw [Bool.not_eq_true] at hg
      simp only [hg, Bool.false_eq_true, if_false] at hs
      injection hs with hs'
      subst hs'
      exact dle_refl d
  · intro d a d' hs
    by_cases hg : pyFalsy (d.transition 0 a) = true
    · simp only [hg, if_true] at hs
      exact wftrans_add_transition hs
    · rw [Bool.not_eq_true] at hg
      simp only [hg, Bool.false_eq_true, if_false] at hs
      injection hs with hs'
      subst hs'
      exact fun hw => hw
  · intro d a d' hs
    by_cases hg : pyFalsy (d.transition 0 a) = true
    · simp only [hg, if_true] at hs
      rw [add_transition_lookup hs]
      rfl
    · rw [Bool.not_eq_true] at hg
      simp only [hg, Bool.false_eq_true, if_false] at hs
      injection hs with hs'
      subst hs'
      exact pyFalsy_false_isSome hg

theorem kmpFillRow_spec {alph : List Sym} {index : Nat} {ff : List Nat}
    {d d' : DFA} (h : kmpFillRow alph index ff d = .ok d') :
    DLE d d' ∧ (WFtrans d → WFtrans d') ∧
    ∀ a ∈ alph, (d'.transition index a).isSome := by
  refine foldCompl ?_ ?_ ?_ alph d d' h
  · intro d a d' hs
    by_cases hg : (!(d.has_transition index a)) = true
    · simp only [hg, if_true, bind, Except.bind] at hs
      cases hf : pyGet ff (index - 1) with
      | error e => rw [hf] at hs; exact Except.noConfusion hs
      | ok f =>
        rw [hf] at hs
        exact add_transition_dle hs
    · rw [Bool.not_eq_true] at hg
      simp only [hg, Bool.false_eq_true, if_false] at hs
      injection hs with hs'
      subst hs'
      exact dle_refl d
  · intro d a d' hs
    by_cases hg : (!(d.has_transition index a)) = true
    · simp only [hg, if_true, bind, Except.bind] at hs
      cases hf : pyGet ff (index - 1) with
      | error e => rw [hf] at hs; exact Except.noConfusion hs
      | ok f =>
        rw [hf] at hs
        exact wftrans_add_transition hs
    · rw [Bool.not_eq_true] at hg
      simp only [hg, Bool.false_eq_true, if_false] at hs
      injection hs with hs'
      subst hs'
      exact fun hw => hw
  · intro d a d' hs
    by_cases hg : (!(d.has_transition index a)) = true
    · simp only [hg, if_true, bind, Except.bind] at hs
      cases hf : pyGet ff (index - 1) with
      | error e => rw [hf] at hs; exact Except.noConfusion hs
      | ok f =>
        rw [hf] at hs
        rw [add_transition_lookup hs]
        rfl
    · rw [Bool.not_eq_true] at hg
      simp only [hg, Bool.false_eq_true, if_false] at hs
      injection hs with hs'
      subst hs'
      simpa [DFA.has_transition] using hg

theorem acInitializeRoot_spec {alph : List Sym} {d d' : DFA}
    (h : acInitializeRoot true alph d = .ok d') :
    DLE d d' ∧ (WFtrans d → WFtrans d') ∧
    ∀ a ∈ alph, (d'.transition 0 a).isSome := by
  unfold acInitializeRoot at h
  rw [if_pos rfl] at h
  refine foldCompl ?_ ?_ ?_ alph d d' h
  · intro d a d' hs
    cases ho : d.transition 0 a with
    | none =>
      rw [ho] at hs
      exact add_transition_dle hs
    | some k =>
      rw [ho] at hs
      injection hs with hs'
      subst hs'
      exact dle_refl d
  · intro d a d' hs
    cases ho : d.transition 0 a with
    | none =>
      rw [ho] at hs
      exact wftrans_add_transition hs
    | some k =>
      rw [ho] at hs
      injection hs with hs'
      subst hs'
      exact fun hw => hw
  · intro d a d' hs
    cases ho : d.transition 0 a with
    | none =>
      rw [ho] at hs
      rw [add_transition_lookup hs]
      rfl
    | some k =>
      rw [ho] at hs
      injection hs with hs'
      subst hs'
      rw [ho]
      rfl

theorem acTopLevel_spec {alph : List Sym} {sym : Sym} {index : Nat}
    {d d' : DFA} (h : acTopLevel true alph sym index d = .ok d') :
    DLE d d' ∧ (WFtrans d → WFtrans d') ∧
    ∀ a ∈ alph, (d'.transition index a).isSome := by
  unfold acTopLevel at h
  rw [if_pos rfl] at h
  refine foldCompl ?_ ?_ ?_ alph d d' h
  · intro d a d' hs
    by_cases hg : pyFalsy (d.transition index a) = true
    · simp only [hg, if_true] at hs
      exact add_transition_dle hs
    · rw [Bool.not_eq_true] at hg
      simp only [hg, Bool.false_eq_true, if_false] at hs
      injection hs with hs'
      subst hs'
      exact dle_refl d
  · intro d a d' hs
    by_cases hg : pyFalsy (d.transition index a) = true
    · simp only [hg, if_true] at hs
      exact wftrans_add_transition hs
    · rw [Bool.not_eq_true] at hg
      simp only [hg, Bool.false_eq_true, if_false] at hs
      injection hs with hs'
      subst hs'
      exact fun hw => hw
  · intro d a d' hs
    by_cases hg : pyFalsy (d.transition index a) = true
    · simp only [hg, if_true] at hs
      rw [add_transition_lookup hs]
      rfl
    · rw [Bool.not_eq_true] at hg
      simp only [hg, Bool.false_eq_true, if_false] at hs
      injection hs with hs'
      subst hs'
      exact pyFalsy_false_isSome hg

theorem precompute_spec {index : Nat} {alph : List Sym} {ff : List Nat}
    {d d' : DFA}
    (h : precompute_possible_transitions d index alph ff = .ok d') :
    DLE d d' ∧ (WFtrans d → WFtrans d') ∧
    ∀ a ∈ alph, (d'.transition index a).isSome := by
  refine foldCompl ?_ ?_ ?_ alph d d' h
  · intro d a d' hs
    cases ho : d.transition index a with
    | some k =>
      rw [ho] at hs
      injection hs with hs'
      subst hs'
      exact dle_refl d
    | none =>
      rw [ho] at hs
      simp only [bind, Except.bind] at hs
      cases hf : pyGet ff (index - 1) with
      | error e => rw [hf] at hs; exact Except.noConfusion hs
      | ok f =>
        simp only [hf] at hs
        cases ho2 : d.transition f a with
        | none => rw [ho2] at hs; exact Except.noConfusion hs
        | some ts =>
          rw [ho2] at hs
          exact add_transition_dle hs
  · intro d a d' hs
    cases ho : d.transition index a with
    | some k =>
      rw [ho] at hs
      injection hs with hs'
      subst hs'
      exact fun hw => hw
    | none =>
      rw [ho] at hs
      simp only [bind, Except.bind] at hs
      cases hf : pyGet ff (index - 1) with
      | error e => rw [hf] at hs; exact Except.noConfusion hs
      | ok f =>
        simp only [hf] at hs
        cases ho2 : d.transition f a with
        | none => rw [ho2] at hs; exact Except.noConfusion hs
        | some ts =>
          rw [ho2] at hs
          exact wftrans_add_transition hs
  · intro d a d' hs
    cases ho : d.transition index a with
    | some k =>
      rw [ho] at hs
      injection hs with hs'
      subst hs'
      rw [ho]
      rfl
    | none =>
      rw [ho] at hs
      simp only [bind, Except.bind] at hs
      cases hf : pyGet ff (index - 1) with
      | error e => rw [hf] at hs; exact Except.noConfusion hs
      | ok f =>
        simp only [hf] at hs
        cases ho2 : d.transition f a with
        | none => rw [ho2] at hs; exact Except.noConfusion hs
        | some ts =>
          rw [ho2] at hs
          rw [add_transition_lookup hs]
          rfl

theorem kmpStatesLoop_inv {pattern : List Sym} :
    ∀ (rest : List Sym) (d : DFA) (index : Nat) (d' : DFA),
      kmpStatesLoop pattern d index rest = .ok d' →
      d'.alphabets = d.alphabets ∧
      (∀ k, d.states = some k → d'.states = some (k + rest.length)) ∧
      (WFtrans d → WFtrans d') := by
  intro rest
  induction rest with
  | nil =>
    intro d index d' h
    injection h with h'
    subst h'
    exact ⟨rfl, fun k hk => by simpa using hk, fun hw => hw⟩
  | cons sym rest ih =>
    intro d index d' h
    simp only [kmpStatesLoop, bind, Except.bind] at h
    cases hs1 : addStateM d (index == pattern.length - 1) (index == 0) with
    | error e => rw [hs1] at h; exact Except.noConfusion h
    | ok pr =>
      obtain ⟨d1, n1⟩ := pr
      simp only [hs1] at h
      cases hs2 : d1.add_transition index sym (index + 1) .success with
      | error e => rw [hs2] at h; exact Except.noConfusion h
      | ok d2 =>
        simp only [hs2] at h
        obtain ⟨ha, hst, hw⟩ := ih d2 (index + 1) d' h
        obtain ⟨htr1, ha1, hst1, _, hsucc1, _⟩ := addStateM_ok hs1
        have hfield2 := add_transition_fields hs2
        refine ⟨?_, ?_, ?_⟩
        · rw [ha, hfield2.2.2, ha1]
        · intro k hk
          have hn1 : n1 = k + 1 := hsucc1 k hk
          have : d2.states = some (k + 1) := by
            rw [hfield2.1, hst1, hn1]
          rw [hst k.succ this]
          congr 1
          simp [Nat.succ_eq_add_one]
          omega
        · intro hwd
          exact hw (wftrans_add_transition hs2 (wftrans_addStateM hs1 hwd))

theorem kmpInitializeDfa_spec {alph : List Sym} {pattern : List Sym}
    {d2 : DFA} (h : kmpInitializeDfa true alph pattern = .ok d2) :
    d2.states = some pattern.length ∧ d2.alphabets = alph ∧ WFtrans d2 ∧
    ∀ a ∈ alph, (d2.transition 0 a).isSome := by
  unfold kmpInitializeDfa at h
  simp only [bind, Except.bind] at h
  cases hs1 : addStateM (DFA.empty alph) (pattern.length == 0) true with
  | error e => rw [hs1] at h; exact Except.noConfusion h
  | ok pr =>
    obtain ⟨d1, n1⟩ := pr
    simp only [hs1] at h
    cases hs2 : kmpStatesLoop pattern d1 0 pattern with
    | error e => rw [hs2] at h; exact Except.noConfusion h
    | ok d2a =>
      simp only [hs2, if_true] at h
      obtain ⟨htr1, ha1, hst1, hz1, _, _⟩ := addStateM_ok hs1
      have hn1 : n1 = 0 := hz1 rfl
      obtain ⟨ha2, hst2, hw2⟩ := kmpStatesLoop_inv pattern d1 0 d2a hs2
      obtain ⟨hdle3, hw3, hcomp3⟩ := kmpInitRoot_spec h
      have hw1 : WFtrans d1 := by
        intro s a v hv
        rw [transition_ext htr1] at hv
        rw [empty_transitions_none rfl] at hv
        exact Option.noConfusion hv
      refine ⟨?_, ?_, ?_, ?_⟩
      · rw [hdle3.states_eq, hst2 0 (hn1 ▸ hst1)]
        simp
      · rw [hdle3.alph_eq, ha2, ha1]
        rfl
      · exact hw3 (hw2 hw1)
      · exact hcomp3

theorem kmpFailLoop_inv {alph : List Sym} {pattern : List Sym} :
    ∀ (idxs : List Nat) (d : DFA) (ff : List Nat) (d' : DFA)
      (ff' : List Nat),
      kmpFailLoop true alph pattern d ff idxs = .ok (d', ff') →
      DLE d d' ∧ (WFtrans d → WFtrans d') ∧
      ∀ index ∈ idxs, ∀ a ∈ alph, (d'.transition index a).isSome := by
  intro idxs
  induction idxs with
  | nil =>
    intro d ff d' ff' h
    injection h with h'
    have hd := congrArg Prod.fst h'
    simp only [] at hd
    subst hd
    exact ⟨dle_refl d, fun hw => hw,
      fun i hi => absurd hi (List.not_mem_nil i)⟩
  | cons index idxs ih =>
    intro d ff d' ff' h
    simp only [kmpFailLoop, bind, Except.bind, if_true] at h
    cases hs1 : kmpFillRow alph index ff d with
    | error e => rw [hs1] at h; exact Except.noConfusion h
    | ok d1 =>
      simp only [hs1] at h
      obtain ⟨hdle1, hw1, hcomp1⟩ := kmpFillRow_spec hs1
      have hfinish : ∀ ff1, kmpFailLoop true alph pattern d1 ff1 idxs =
          .ok (d', ff') →
          DLE d d' ∧ (WFtrans d → WFtrans d') ∧
          ∀ i ∈ index :: idxs, ∀ a ∈ alph, (d'.transition i a).isSome := by
        intro ff1 hrec
        obtain ⟨hdle2, hw2, hcomp2⟩ := ih d1 ff1 d' ff' hrec
        refine ⟨dle_trans hdle1 hdle2, fun hw => hw2 (hw1 hw), ?_⟩
        intro i hi a ha
        rcases List.mem_cons.mp hi with rfl | hil
        · exact dle_isSome hdle2 (hcomp1 a ha)
        · exact hcomp2 i hil a ha
      by_cases hidx : index < pattern.length
      · simp only [hidx, if_true] at h
        cases hpg : pyGet ff (index - 1) with
        | error e => simp only [hpg] at h; exact Except.noConfusion h
        | ok f =>
          simp only [hpg] at h
          cases hget : pattern.get? index with
          | none => simp only [hget] at h; exact Except.noConfusion h
          | some ch =>
            simp only [hget] at h
            cases hset : pySetI ff (index : Int)
                ((d1.transition f ch).getD 0) with
            | error e => simp only [hset] at h; exact Except.noConfusion h
            | ok ff1 =>
              simp only [hset] at h
              exact hfinish ff1 h
      · simp only [hidx, if_false] at h
        exact hfinish ff h

theorem kmp_build_facts {pattern : List Sym} {alph : Option (List Sym)}
    {m : KMPMatcher} (h : KMPMatcher.build pattern true alph = .ok m) :
    m.compute_transitions = true ∧
    m.dfa.states = some pattern.length ∧
    m.dfa.alphabets = kmpAlphabet alph pattern ∧
    WFtrans m.dfa ∧
    ∀ st ≤ pattern.length, ∀ a ∈ m.dfa.alphabets,
      (m.dfa.transition st a).isSome := by
  unfold KMPMatcher.build at h
  by_cases he : pattern.isEmpty
  · simp [he] at h
  · simp only [he, Bool.false_eq_true, if_false, bind, Except.bind] at h
    cases hs1 : kmpInitializeDfa true (kmpAlphabet alph pattern) pattern with
    | error e => rw [hs1] at h; exact Except.noConfusion h
    | ok d2 =>
      simp only [hs1] at h
      cases hs2 : kmpFailLoop true (kmpAlphabet alph pattern) pattern d2
          (List.replicate pattern.length 0) (List.range' 1 pattern.length) with
      | error e => rw [hs2] at h; exact Except.noConfusion h
      | ok pr =>
        obtain ⟨dF, ffF⟩ := pr
        simp only [hs2] at h
        injection h with h'
        subst h'
        obtain ⟨hst2, ha2, hw2, hroot2⟩ := kmpInitializeDfa_spec hs1
        obtain ⟨hdle, hwF, hcompF⟩ :=
          kmpFailLoop_inv (List.range' 1 pattern.length) d2
            (List.replicate pattern.length 0) dF ffF hs2
        refine ⟨rfl, ?_, ?_, hwF hw2, ?_⟩
        · rw [hdle.states_eq, hst2]
        · rw [hdle.alph_eq, ha2]
        · intro st hle a ha
          rw [hdle.alph_eq, ha2] at ha
          rcases Nat.eq_zero_or_pos st with rfl | hpos
          · exact dle_isSome hdle (hroot2 a ha)
          · refine hcompF st ?_ a ha
            rw [List.mem_range'_1]
            omega

theorem searchPre_no_missing {d : DFA} {emit : Emit} {mx : Nat}
    (hstates : d.states = some mx)
    (hcomp : ∀ st, st ≤ mx → ∀ a ∈ d.alphabets, (d.transition st a).isSome)
    (hwf : WFtrans d)
    (hemit : ∀ i t m, emit i t = .error m →
      m ≠ "ValueError: Error in DFA definition") :
    ∀ (s : List Sym) (i st : Nat), st ≤ mx →
      (∀ c ∈ s, d.alphabets.contains c = true) →
      (searchPre d emit i st s).error ≠
        some "ValueError: Error in DFA definition" := by
  intro s
  induction s with
  | nil =>
    intro i st hle hal
    simp [searchPre]
  | cons c rest ih =>
    intro i st hle hal
    have hc : c ∈ d.alphabets := by
      have := hal c (List.mem_cons_self c rest)
      simpa using this
    have hsome := hcomp st hle c hc
    obtain ⟨t, ht⟩ := Option.isSome_iff_exists.mp hsome
    obtain ⟨mx', hmx', htle⟩ := hwf st c t ht
    rw [hstates] at hmx'
    injection hmx' with hmx'
    subst hmx'
    have hacc : d.is_accepting_state t =
        .ok (d.accepting_states.contains t) := by
      unfold DFA.is_accepting_state
      rw [hstates]
      simp [Nat.not_lt.mpr htle]
    have hrest : ∀ c' ∈ rest, d.alphabets.contains c' = true :=
      fun c' hc' => hal c' (List.mem_cons_of_mem c hc')
    cases hb : d.accepting_states.contains t with
    | false =>
      simp only [searchPre, ht, hacc, hb, Bool.false_eq_true, if_false]
      exact ih (i + 1) t htle hrest
    | true =>
      cases hem : emit i t with
      | error e =>
        simp only [searchPre, ht, hacc, hb, if_true, hem]
        intro hcontra
        injection hcontra with hcontra
        exact hemit i t e hem hcontra
      | ok mtch =>
        simp only [searchPre, ht, hacc, hb, if_true, hem]
        exact ih (i + 1) t htle hrest

theorem reach_mono {d d' : DFA}
    (hmono : ∀ s a v, d.transition s a = some v → d'.transition s a = some v)
    {u : Nat} (h : ReachSt d u) : ReachSt d' u := by
  induction h with
  | init => exact ReachSt.init
  | step _ he ih => exact ReachSt.step ih (hmono _ _ _ he)

theorem transition_mem_outEdges {d : DFA} {s : Nat} {c : Sym} {v : Nat}
    (h : d.transition s c = some v) : (s, c, v) ∈ d.outEdges s := by
  unfold DFA.transition at h
  unfold DFA.outEdges
  cases hr : d.findRow s with
  | none => rw [hr] at h; exact Option.noConfusion h
  | some row =>
    simp only [hr] at h ⊢
    cases hq : row.find? (fun q => q.1 == c) with
    | none => rw [hq] at h; exact Option.noConfusion h
    | some q =>
      rw [hq] at h
      injection h with h'
      have hqc : (q.1 == c) = true := by
        have := List.find?_some hq
        simpa using this
      have hqm := List.mem_of_find?_eq_some hq
      refine List.mem_map.mpr ⟨q, hqm, ?_⟩
      simp only [] at h'
      rw [beq_iff_eq.mp hqc, h']

theorem outEdges_sub_allEdges {d : DFA} {s : Nat} :
    ∀ e ∈ d.outEdges s, e ∈ allEdges d := by
  intro e he
  unfold DFA.outEdges at he
  cases hr : d.findRow s with
  | none => rw [hr] at he; exact absurd he (List.not_mem_nil e)
  | some row =>
    rw [hr] at he
    unfold DFA.findRow at hr
    rcases Option.map_eq_some'.mp hr with ⟨p, hfp, hp2⟩
    have hps : (p.1 == s) = true := by
      have := List.find?_some hfp
      simpa using this
    have hpm := List.mem_of_find?_eq_some hfp
    unfold allEdges
    rcases List.mem_map.mp he with ⟨q, hq, rfl⟩
    refine List.mem_flatMap.mpr ⟨p, hpm, ?_⟩
    refine List.mem_map.mpr ⟨q, ?_, ?_⟩
    · rw [hp2]
      exact hq
    · rw [beq_iff_eq.mp hps]

theorem rowsNodup_transitions_eq {d d' : DFA}
    (h : d'.transitions = d.transitions) (hrn : RowsNodup d) :
    RowsNodup d' := by
  unfold RowsNodup at *
  rw [h]
  exact hrn

theorem rowsnodup_add_transition {d : DFA} {f : Nat} {c : Sym} {t : Nat}
    {tt : TransitionType} {d' : DFA}
    (h : d.add_transition f c t tt = .ok d') (hrn : RowsNodup d) :
    RowsNodup d' := by
  obtain ⟨hkeys, hrows⟩ := hrn
  rcases add_transition_ok_cases h with ⟨hrow, rfl⟩ | ⟨row, hrow, hfree, rfl⟩
  · constructor
    · simp only [List.map_append, List.map_cons, List.map_nil]
      rw [List.nodup_append]
      refine ⟨hkeys, List.nodup_singleton f, ?_⟩
      intro x hx hx2
      simp only [List.mem_singleton] at hx2
      subst hx2
      unfold DFA.findRow at hrow
      have := Option.map_eq_none'.mp hrow
      rw [List.find?_eq_none] at this
      rcases List.mem_map.mp hx with ⟨p, hp, rfl⟩
      exact absurd (by simp : (p.1 == p.1) = true) (this p hp)
    · intro p hp
      rcases List.mem_append.mp hp with hp1 | hp2
      · exact hrows p hp1
      · simp only [List.mem_singleton] at hp2
        subst hp2
        exact List.nodup_singleton c
  · constructor
    · have : (d.transitions.map (fun p =>
          if p.1 == f then (p.1, p.2 ++ [(c, t, tt)]) else p)).map
            (fun p => p.1) = d.transitions.map (fun p => p.1) := by
        rw [List.map_map]
        congr 1
        funext x
        by_cases hx : x.1 = f <;> simp [hx]
      rw [this]
      exact hkeys
    · intro p hp
      rcases List.mem_map.mp hp with ⟨q, hq, rfl⟩
      by_cases hqf : (q.1 == f) = true
      · simp only [hqf, if_true, List.map_append, List.map_cons, List.map_nil]
        rw [List.nodup_append]
        refine ⟨hrows q hq, List.nodup_singleton c, ?_⟩
        intro x hx hx2
        simp only [List.mem_singleton] at hx2
        subst hx2
        unfold DFA.findRow at hrow
        rcases Option.map_eq_some'.mp hrow with ⟨pr, hfpr, hpr2⟩
        have hq_eq : q = pr := by
          refine List.inj_on_of_nodup_map hkeys hq
            (List.mem_of_find?_eq_some hfpr) ?_
          have h1 := beq_iff_eq.mp hqf
          have h2 : (pr.1 == f) = true := by
            have := List.find?_some hfpr
            simpa using this
          have h3 := beq_iff_eq.mp h2
          show q.1 = pr.1
          omega
        rw [List.find?_eq_none] at hfree
        rcases List.mem_map.mp hx with ⟨z, hz, rfl⟩
        refine absurd (by simp : (z.1 == z.1) = true) (hfree z ?_)
        rw [← hpr2, ← hq_eq]
        exact hz
      · simp only [hqf, if_false]
        exact hrows q hq

theorem foldlM_preserve {P : DFA → Prop} {step : DFA → Sym → Except String DFA}
    (hstep : ∀ d a d', step d a = .ok d' → P d → P d') :
    ∀ (l : List Sym) (d d' : DFA), l.foldlM step d = .ok d' → P d → P d' := by
  intro l
  induction l with
  | nil =>
    intro d d' h hp
    rw [List.foldlM_nil] at h
    injection h with h'
    subst h'
    exact hp
  | cons a l ih =>
    intro d d' h hp
    rw [List.foldlM_cons] at h
    cases hs : step d a with
    | error e =>
      simp only [hs, bind, Except.bind] at h
      exact Except.noConfusion h
    | ok d1 =>
      simp only [hs, bind, Except.bind] at h
      exact ih d1 d' h (hstep d a d1 hs hp)

theorem bfsPush_spec (outs : List Edge) :
    ∀ (q v : List Edge),
      (∀ x ∈ v, x ∈ (bfsPush outs q v).2) ∧
      (∀ x ∈ q, x ∈ (bfsPush outs q v).1) ∧
      (∀ x ∈ outs, x ∈ (bfsPush outs q v).2) ∧
      (∀ x ∈ (bfsPush outs q v).2, x ∈ v ∨ x ∈ (bfsPush outs q v).1) ∧
      (∀ x ∈ (bfsPush outs q v).1, x ∈ q ∨ x ∈ outs) ∧
      (v.Nodup → (bfsPush outs q v).2.Nodup) ∧
      (∀ x ∈ (bfsPush outs q v).2, x ∈ v ∨ x ∈ outs) ∧
      (∃ m, (bfsPush outs q v).1.length = q.length + m ∧
            (bfsPush outs q v).2.length = v.length + m) := by
  induction outs with
  | nil =>
    intro q v
    refine ⟨fun x hx => hx, fun x hx => hx, ?_, ?_, ?_, fun h => h, ?_, ?_⟩
    · intro x hx
      exact absurd hx (List.not_mem_nil x)
    · intro x hx
      exact Or.inl hx
    · intro x hx
      exact Or.inl hx
    · intro x hx
      exact Or.inl hx
    · exact ⟨0, rfl, rfl⟩
  | cons e outs ih =>
    intro q v
    by_cases hc : v.contains e
    · have hpush : bfsPush (e :: outs) q v = bfsPush outs q v := by
        unfold bfsPush
        simp only [List.foldl_cons, hc, if_true]
      obtain ⟨p1, p2, p3, p4, p5, p6, p7, p8⟩ := ih q v
      rw [hpush]
      have hev : e ∈ v := by
        simpa using hc
      refine ⟨p1, p2, ?_, p4, ?_, p6, ?_, p8⟩
      · intro x hx
        rcases List.mem_cons.mp hx with rfl | hxo
        · exact p1 x hev
        · exact p3 x hxo
      · intro x hx
        rcases p5 x hx with h | h
        · exact Or.inl h
        · exact Or.inr (List.mem_cons_of_mem e h)
      · intro x hx
        rcases p7 x hx with h | h
        · exact Or.inl h
        · exact Or.inr (List.mem_cons_of_mem e h)
    · have hpush : bfsPush (e :: outs) q v =
          bfsPush outs (q ++ [e]) (v ++ [e]) := by
        unfold bfsPush
        simp only [List.foldl_cons, hc]
        rw [if_neg]
        simp [hc]
      obtain ⟨p1, p2, p3, p4, p5, p6, p7, p8⟩ := ih (q ++ [e]) (v ++ [e])
      rw [hpush]
      have hev : e ∉ v := by
        simpa using hc
      refine ⟨?_, ?_, ?_, ?_, ?_, ?_, ?_, ?_⟩
      · intro x hx
        exact p1 x (List.mem_append_left _ hx)
      · intro x hx
        exact p2 x (List.mem_append_left _ hx)
      · intro x hx
        rcases List.mem_cons.mp hx with rfl | hxo
        · exact p1 x (List.mem_append_right _ (List.mem_singleton_self x))
        · exact p3 x hxo
      · intro x hx
        rcases p4 x hx with h | h
        · rcases List.mem_append.mp h with h' | h'
          · exact Or.inl h'
          · simp only [List.mem_singleton] at h'
            subst h'
            exact Or.inr (p2 x (List.mem_append_right _
              (List.mem_singleton_self x)))
        · exact Or.inr h
      · intro x hx
        rcases p5 x hx with h | h
        · rcases List.mem_append.mp h with h' | h'
          · exact Or.inl h'
          · simp only [List.mem_singleton] at h'
            subst h'
            exact Or.inr (List.mem_cons_self x outs)
        · exact Or.inr (List.mem_cons_of_mem e h)
      · intro hnd
        refine p6 ?_
        rw [List.nodup_append]
        exact ⟨hnd, List.nodup_singleton e, by
          intro x hx hx2
          simp only [List.mem_singleton] at hx2
          subst hx2
          exact hev hx⟩
      · intro x hx
        rcases p7 x hx with h | h
        · rcases List.mem_append.mp h with h' | h'
          · exact Or.inl h'
          · simp only [List.mem_singleton] at h'
            subst h'
            exact Or.inr (List.mem_cons_self x outs)
        · exact Or.inr (List.mem_cons_of_mem e h)
      · obtain ⟨m, hm1, hm2⟩ := p8
        refine ⟨m + 1, ?_, ?_⟩
        · rw [hm1]
          simp only [List.length_append, List.length_singleton]
          omega
        · rw [hm2]
          simp only [List.length_append, List.length_singleton]
          omega

theorem bfsLoop_master (d : DFA) :
    ∀ (fuel : Nat) (queue visited : List Edge),
      (∀ e ∈ queue, e ∈ visited) →
      visited.Nodup →
      (∀ e ∈ visited, e ∈ allEdges d) →
      queue.length + ((allEdges d).length - visited.length) < fuel →
      ∃ out, bfsLoop d fuel queue visited = some out ∧
        (∀ e ∈ queue, e ∈ out) ∧
        (∀ e ∈ out, ∀ e' ∈ d.outEdges e.2.2, e' ∈ out ∨ e' ∈ visited) := by
  intro fuel
  induction fuel with
  | zero =>
    intro queue visited _ _ _ hlt
    omega
  | succ fuel ih =>
    intro queue visited hqv hnd hvE hlt
    cases queue with
    | nil =>
      refine ⟨[], rfl, ?_, ?_⟩
      · intro e he
        exact absurd he (List.not_mem_nil e)
      · intro e he
        exact absurd he (List.not_mem_nil e)
    | cons e rest =>
      obtain ⟨p1, p2, p3, p4, p5, p6, p7, p8⟩ :=
        bfsPush_spec (d.outEdges e.2.2) rest visited
      set q' := (bfsPush (d.outEdges e.2.2) rest visited).1 with hq'
      set v' := (bfsPush (d.outEdges e.2.2) rest visited).2 with hv'
      have hrestv : ∀ x ∈ rest, x ∈ visited :=
        fun x hx => hqv x (List.mem_cons_of_mem e hx)
      have hq'v' : ∀ x ∈ q', x ∈ v' := by
        intro x hx
        rcases p5 x hx with h | h
        · exact p1 x (hrestv x h)
        · exact p3 x h
      have hv'nd : v'.Nodup := p6 hnd
      have hv'E : ∀ x ∈ v', x ∈ allEdges d := by
        intro x hx
        rcases p7 x hx with h | h
        · exact hvE x h
        · exact outEdges_sub_allEdges x h
      have hv'len : v'.length ≤ (allEdges d).length :=
        nodup_subset_length hv'nd hv'E
      obtain ⟨m, hm1, hm2⟩ := p8
      have hlt' : q'.length + ((allEdges d).length - v'.length) < fuel := by
        simp only [List.length_cons] at hlt
        omega
      obtain ⟨out', hloop, hc1, hc2⟩ := ih q' v' hq'v' hv'nd hv'E hlt'
      refine ⟨e :: out', ?_, ?_, ?_⟩
      · show bfsLoop d (fuel + 1) (e :: rest) visited = some (e :: out')
        unfold bfsLoop
        rw [← hq', ← hv'] at *
        simp only [← hq', ← hv', hloop, Option.map_some']
      · intro x hx
        rcases List.mem_cons.mp hx with rfl | hxr
        · exact List.mem_cons_self x out'
        · exact List.mem_cons_of_mem e (hc1 x (p2 x hxr))
      · intro x hx e' he'
        rcases List.mem_cons.mp hx with rfl | hxo
        · have hin : e' ∈ v' := p3 e' he'
          rcases p4 e' hin with h | h
          · exact Or.inr h
          · exact Or.inl (List.mem_cons_of_mem x (hc1 e' h))
        · rcases hc2 x hxo e' he' with h | h
          · exact Or.inl (List.mem_cons_of_mem e h)
          · rcases p4 e' h with h' | h'
            · exact Or.inr h'
            · exact Or.inl (List.mem_cons_of_mem e (hc1 e' h'))

theorem allEdges_length (d : DFA) : (allEdges d).length = d.totalEdges := by
  unfold allEdges DFA.totalEdges
  rw [List.length_flatMap]
  congr 1
  refine List.map_congr_left ?_
  intro p _
  simp

theorem bfs_traverse_spec {d : DFA} {out : List Edge}
    (hinit : d.initial_state = some 0) (hrn : RowsNodup d)
    (h : d.bfs_traverse = .ok out) :
    (∀ e ∈ d.outEdges 0, e.2.2 ≠ 0 → e ∈ out) ∧
    (∀ e ∈ out, ∀ e' ∈ d.outEdges e.2.2, e' ∈ out) := by
  unfold DFA.bfs_traverse at h
  simp only [hinit] at h
  cases hr : d.findRow 0 with
  | none =>
    simp only [hr] at h
    exact Except.noConfusion h
  | some row =>
    simp only [hr] at h
    set first := (row.filter (fun q => q.2.1 != 0)).map
      (fun q => ((0 : Nat), q.1, q.2.1)) with hfirst
    have hfirst_out : ∀ e ∈ first, e ∈ d.outEdges 0 := by
      intro e he
      rcases List.mem_map.mp he with ⟨q, hq, rfl⟩
      unfold DFA.outEdges
      rw [hr]
      exact List.mem_map.mpr ⟨q, List.mem_of_mem_filter hq, rfl⟩
    have hfirst_E : ∀ e ∈ first, e ∈ allEdges d := by
      intro e he
      exact outEdges_sub_allEdges e (hfirst_out e he)
    have hrow_keys : (row.map (fun q => q.1)).Nodup := by
      unfold DFA.findRow at hr
      rcases Option.map_eq_some'.mp hr with ⟨p, hfp, hp2⟩
      have := hrn.2 p (List.mem_of_find?_eq_some hfp)
      rw [hp2] at this
      exact this
    have hfil_keys : ((row.filter (fun q => q.2.1 != 0)).map
        (fun q => q.1)).Nodup := by
      refine List.Nodup.sublist ?_ hrow_keys
      exact List.Sublist.map _ (List.filter_sublist row)
    have hfirst_nd : first.Nodup := by
      refine List.Nodup.map_on ?_ (List.Nodup.of_map _ hfil_keys)
      intro x hx y hy hxy
      have hk : x.1 = y.1 := by
        have := congrArg (fun z : Edge => z.2.1) hxy
        simpa using this
      exact List.inj_on_of_nodup_map hfil_keys hx hy hk
    have hflen : first.length ≤ (allEdges d).length :=
      nodup_subset_length hfirst_nd hfirst_E
    have hbound : first.length +
        ((allEdges d).length - first.length) < d.bfsFuel := by
      unfold DFA.bfsFuel
      rw [← allEdges_length]
      omega
    obtain ⟨out', hloop, hc1, hc2⟩ := bfsLoop_master d d.bfsFuel first first
      (fun e he => he) hfirst_nd hfirst_E hbound
    rw [hloop] at h
    injection h with h'
    subst h'
    refine ⟨?_, ?_⟩
    · intro e he hne
      refine hc1 e ?_
      unfold DFA.outEdges at he
      rw [hr] at he
      rcases List.mem_map.mp he with ⟨q, hq, rfl⟩
      refine List.mem_map.mpr ⟨q, ?_, rfl⟩
      refine List.mem_filter.mpr ⟨hq, ?_⟩
      simpa using hne
    · intro e he e' he'
      rcases hc2 e he e' he' with hcase | hcase
      · exact hcase
      · exact hc1 e' hcase

theorem reach_edges_in_out {d : DFA} {out : List Edge}
    (hinit : d.initial_state = some 0) (hrn : RowsNodup d)
    (h : d.bfs_traverse = .ok out) :
    ∀ u, ReachSt d u → ∀ e' ∈ d.outEdges u, (u = 0 → e'.2.2 ≠ 0) →
      e' ∈ out := by
  obtain ⟨hfirst, hclose⟩ := bfs_traverse_spec hinit hrn h
  intro u hu
  induction hu with
  | init =>
    intro e' he' hf
    exact hfirst e' he' (hf rfl)
  | step hw he ihw =>
    rename_i w c u'
    intro e' he' hf
    by_cases hu0 : u' = 0
    · subst hu0
      exact hfirst e' he' (hf rfl)
    · have hedge : (w, c, u') ∈ d.outEdges w := transition_mem_outEdges he
      have hin : (w, c, u') ∈ out := ihw (w, c, u') hedge (fun _ => hu0)
      exact hclose (w, c, u') hin e' he'

theorem state_has_inedge_in_out {d : DFA} {out : List Edge} {mx : Nat}
    (hinit : d.initial_state = some 0) (hrn : RowsNodup d)
    (hAR : AllReach d) (hmx : d.states = some mx)
    (h : d.bfs_traverse = .ok out) :
    ∀ v, 1 ≤ v → v ≤ mx → ∃ e ∈ out, e.2.2 = v := by
  intro v h1 hle
  have hr : ReachSt d v := hAR mx hmx v hle
  cases hr with
  | init => omega
  | step hw he =>
    rename_i w c
    have hedge : (w, c, v) ∈ d.outEdges w := transition_mem_outEdges he
    refine ⟨(w, c, v), ?_, rfl⟩
    exact reach_edges_in_out hinit hrn h w hw (w, c, v) hedge
      (fun _ => by
        show v ≠ 0
        omega)

theorem addPatternWalk_reach {d : DFA} :
    ∀ (rest : List Sym) (i state : Nat) (ns : Option Nat),
      ReachSt d state →
      ReachSt d (addPatternWalk d rest i state ns).2.1 := by
  intro rest
  induction rest with
  | nil =>
    intro i state ns h
    exact h
  | cons c rest ih =>
    intro i state ns h
    cases ht : d.transition state c with
    | none =>
      simp only [addPatternWalk, ht]
      exact h
    | some k =>
      cases k with
      | zero =>
        simp only [addPatternWalk, ht]
        exact h
      | succ k =>
        simp only [addPatternWalk, ht]
        exact ih (i + 1) (k + 1) (some (k + 1)) (ReachSt.step h ht)

theorem addPatternCreate_inv {pattern : List Sym} :
    ∀ (rest : List Sym) (d : DFA) (pm : List (Nat × List Sym)) (state j : Nat)
      (d' : DFA) (pm' : List (Nat × List Sym)) (last : Nat),
      addPatternCreate pattern d pm state j rest = .ok (d', pm', last) →
      ReachSt d state →
      ∀ mx, d.states = some mx →
      AllReach d → WFtrans d → RowsNodup d →
      (d'.alphabets = d.alphabets ∧ d'.initial_state = d.initial_state ∧
       (∃ mx', d'.states = some mx' ∧ mx ≤ mx') ∧
       AllReach d' ∧ WFtrans d' ∧ RowsNodup d' ∧
       (∀ s a v, d.transition s a = some v → d'.transition s a = some v)) := by
  intro rest
  induction rest with
  | nil =>
    intro d pm state j d' pm' last h hreach mx hmx hAR hw hrn
    injection h with h'
    have hd := congrArg (fun z : DFA × List (Nat × List Sym) × Nat => z.1) h'
    simp only [] at hd
    subst hd
    exact ⟨rfl, rfl, ⟨mx, hmx, Nat.le_refl mx⟩, hAR, hw, hrn,
      fun _ _ _ hv => hv⟩
  | cons c rest ih =>
    intro d pm state j d' pm' last h hreach mx hmx hAR hw hrn
    simp only [addPatternCreate, bind, Except.bind] at h
    cases hs1 : addStateM d (j == pattern.length - 1) false with
    | error e => rw [hs1] at h; exact Except.noConfusion h
    | ok pr =>
      obtain ⟨d1, added⟩ := pr
      simp only [hs1] at h
      cases hs2 : d1.add_transition state c added .success with
      | error e => rw [hs2] at h; exact Except.noConfusion h
      | ok d2 =>
        simp only [hs2] at h
        obtain ⟨htr1, ha1, hst1, _, hsucc1, hinit1⟩ := addStateM_ok hs1
        have hadded : added = mx + 1 := hsucc1 mx hmx
        have hmono1 : ∀ s a v, d.transition s a = some v →
            d1.transition s a = some v := by
          intro s a v hv
          rw [transition_ext htr1]
          exact hv
        have hdle2 := add_transition_dle hs2
        have hmono12 : ∀ s a v, d.transition s a = some v →
            d2.transition s a = some v :=
          fun s a v hv => hdle2.mono s a v (hmono1 s a v hv)
        have hreach2 : ReachSt d2 added :=
          ReachSt.step (reach_mono hmono12 hreach) (add_transition_lookup hs2)
        have hst2 : d2.states = some (mx + 1) := by
          rw [hdle2.states_eq, hst1, hadded]
        have hAR2 : AllReach d2 := by
          intro mx2 hmx2 v hv
          rw [hst2] at hmx2
          injection hmx2 with hmx2
          subst hmx2
          rcases Nat.lt_or_ge v (mx + 1) with hlt | hge
          · exact reach_mono hmono12 (hAR mx hmx v (by omega))
          · have : v = mx + 1 := by omega
            subst this
            rw [← hadded]
            exact hreach2
        have hw2 : WFtrans d2 :=
          wftrans_add_transition hs2 (wftrans_addStateM hs1 hw)
        have hrn2 : RowsNodup d2 :=
          rowsnodup_add_transition hs2 (rowsNodup_transitions_eq htr1 hrn)
        obtain ⟨ga, gi, ⟨mx', gst, gle⟩, gAR, gw, grn, gmono⟩ :=
          ih d2 (dictSet pm added (pattern.take j)) added (j + 1) d' pm'
            last h hreach2 (mx + 1) hst2 hAR2 hw2 hrn2
        refine ⟨?_, ?_, ⟨mx', gst, by omega⟩, gAR, gw, grn, ?_⟩
        · rw [ga, hdle2.alph_eq, ha1]
        · rw [gi, add_transition_initial hs2, hinit1 rfl]
        · intro s a v hv
          exact gmono s a v (hmono12 s a v hv)

theorem addPattern_inv {d : DFA} {pattern : List Sym} {d' : DFA}
    {frag : List (Nat × List Sym)}
    (h : addPattern d pattern = .ok (d', frag))
    (hinit : d.initial_state = some 0) {mx : Nat} (hmx : d.states = some mx)
    (hAR : AllReach d) (hw : WFtrans d) (hrn : RowsNodup d) :
    d'.alphabets = d.alphabets ∧ d'.initial_state = some 0 ∧
    (∃ mx', d'.states = some mx' ∧ mx ≤ mx') ∧
    AllReach d' ∧ WFtrans d' ∧ RowsNodup d' ∧
    (∀ s a v, d.transition s a = some v → d'.transition s a = some v) := by
  unfold addPattern at h
  simp only [hinit] at h
  rcases hw3 : addPatternWalk d pattern 0 0 none with ⟨i, state, ns⟩
  rw [hw3] at h
  have hreach : ReachSt d state := by
    have := addPatternWalk_reach (d := d) pattern 0 0 none ReachSt.init
    rw [hw3] at this
    exact this
  cases ns with
  | none =>
    simp only [bind, Except.bind] at h
    cases hc : addPatternCreate pattern d [(0, [])] state i
        (pattern.drop i) with
    | error e => rw [hc] at h; exact Except.noConfusion h
    | ok tr =>
      obtain ⟨d1, pm1, last⟩ := tr
      simp only [hc] at h
      injection h with h'
      have hd := congrArg
        (fun z : DFA × List (Nat × List Sym) => z.1) h'
      simp only [] at hd
      subst hd
      obtain ⟨ga, gi, gst, gAR, gw, grn, gmono⟩ :=
        addPatternCreate_inv (pattern.drop i) d [(0, [])] state i d1 pm1
          last hc hreach mx hmx hAR hw hrn
      exact ⟨ga, gi.trans hinit, gst, gAR, gw, grn, gmono⟩
  | some t =>
    by_cases hi : (i == pattern.length) = true
    · simp only [hi, if_true, bind, Except.bind] at h
      cases hs : d.set_accepting t true with
      | error e => rw [hs] at h; exact Except.noConfusion h
      | ok d1 =>
        simp only [hs] at h
        injection h with h'
        have hd := congrArg
          (fun z : DFA × List (Nat × List Sym) => z.1) h'
        simp only [] at hd
        subst hd
        obtain ⟨htr, ha, hst, hini⟩ := set_accepting_true_ok hs
        refine ⟨ha, hini.trans hinit, ⟨mx, hst.trans hmx, Nat.le_refl mx⟩,
          ?_, ?_, rowsNodup_transitions_eq htr hrn, ?_⟩
        · intro mx1 hmx1 v hv
          rw [hst] at hmx1
          exact reach_mono (fun s a v hv => by
            rw [transition_ext htr]
            exact hv) (hAR mx1 hmx1 v hv)
        · intro s a v hv
          rw [transition_ext htr] at hv
          obtain ⟨mx1, hmx1, hle⟩ := hw s a v hv
          exact ⟨mx1, hst.trans hmx1, hle⟩
        · intro s a v hv
          rw [transition_ext htr]
          exact hv
    · simp only [hi, Bool.false_eq_true, if_false] at h
      injection h with h'
      have hd := congrArg
        (fun z : DFA × List (Nat × List Sym) => z.1) h'
      simp only [] at hd
      subst hd
      exact ⟨rfl, hinit, ⟨mx, hmx, Nat.le_refl mx⟩, hAR, hw, hrn,
        fun _ _ _ hv => hv⟩

theorem acPatternsFold_inv :
    ∀ (ps : List (List Sym)) (d : DFA) (pmAcc : List (Nat × List Sym))
      (d2 : DFA) (pm2 : List (Nat × List Sym)),
      acPatternsFold ps (d, pmAcc) = .ok (d2, pm2) →
      d.initial_state = some 0 → ∀ mx, d.states = some mx →
      AllReach d → WFtrans d → RowsNodup d →
      d2.alphabets = d.alphabets ∧ d2.initial_state = some 0 ∧
      (∃ mx', d2.states = some mx') ∧
      AllReach d2 ∧ WFtrans d2 ∧ RowsNodup d2 := by
  intro ps
  induction ps with
  | nil =>
    intro d pmAcc d2 pm2 h hinit mx hmx hAR hw hrn
    unfold acPatternsFold at h
    rw [List.foldlM_nil] at h
    injection h with h'
    have hd := congrArg (fun z : DFA × List (Nat × List Sym) => z.1) h'
    simp only [] at hd
    subst hd
    exact ⟨rfl, hinit, ⟨mx, hmx⟩, hAR, hw, hrn⟩
  | cons p ps ih =>
    intro d pmAcc d2 pm2 h hinit mx hmx hAR hw hrn
    unfold acPatternsFold at h
    rw [List.foldlM_cons] at h
    simp only [bind, Except.bind] at h
    cases hap : addPattern d p with
    | error e => simp only [hap] at h; exact Except.noConfusion h
    | ok pr =>
      obtain ⟨dp, frag⟩ := pr
      simp only [hap] at h
      obtain ⟨ga, gi, ⟨mx', gst, _⟩, gAR, gw, grn, _⟩ :=
        addPattern_inv hap hinit hmx hAR hw hrn
      obtain ⟨fa, fi, fst, fAR, fw, frn⟩ :=
        ih dp (dictUpdate pmAcc frag) d2 pm2 (by
          unfold acPatternsFold
          exact h) gi mx' gst gAR gw grn
      exact ⟨fa.trans ga, fi, fst, fAR, fw, frn⟩

theorem acInitializeDfa_spec {alph : List Sym} {patterns : List (List Sym)}
    {d0 : DFA} {pm : List (Nat × List Sym)}
    (h : acInitializeDfa true alph patterns = .ok (d0, pm)) :
    d0.initial_state = some 0 ∧ (∃ n0, d0.states = some n0) ∧
    d0.alphabets = alph ∧ AllReach d0 ∧ WFtrans d0 ∧ RowsNodup d0 ∧
    ∀ a ∈ alph, (d0.transition 0 a).isSome := by
  unfold acInitializeDfa at h
  have hfirst : addStateM (DFA.empty alph) false true =
      .ok (⟨some 0, alph, [], some 0, []⟩, 0) := rfl
  simp only [bind, Except.bind] at h
  simp only [hfirst] at h
  cases hfold : acPatternsFold patterns
      ((⟨some 0, alph, [], some 0, []⟩ : DFA), ([] : List (Nat × List Sym)))
      with
  | error e =>
    simp only [hfold] at h
    exact Except.noConfusion h
  | ok pr =>
    obtain ⟨d2, pm'⟩ := pr
    simp only [hfold] at h
    cases hroot : acInitializeRoot true alph d2 with
    | error e =>
      simp only [hroot] at h
      exact Except.noConfusion h
    | ok d3 =>
      simp only [hroot] at h
      injection h with h'
      have hd := congrArg (fun z : DFA × List (Nat × List Sym) => z.1) h'
      simp only [] at hd
      subst hd
      have hARinit : AllReach (⟨some 0, alph, [], some 0, []⟩ : DFA) := by
        intro mx hmx v hv
        injection hmx with hmx
        have : v = 0 := by omega
        subst this
        exact ReachSt.init
      have hwinit : WFtrans (⟨some 0, alph, [], some 0, []⟩ : DFA) := by
        intro s a v hv
        rw [empty_transitions_none rfl] at hv
        exact Option.noConfusion hv
      have hrninit : RowsNodup (⟨some 0, alph, [], some 0, []⟩ : DFA) := by
        exact ⟨List.nodup_nil, fun p hp => absurd hp (List.not_mem_nil p)⟩
      obtain ⟨ga2, gi2, ⟨mx2, gst2⟩, gAR2, gw2, grn2⟩ :=
        acPatternsFold_inv patterns ⟨some 0, alph, [], some 0, []⟩ [] d2 pm'
          hfold rfl 0 rfl hARinit hwinit hrninit
      obtain ⟨hdle3, hw3, hcomp3⟩ := acInitializeRoot_spec hroot
      have hrootfold : alph.foldlM (fun dd a =>
          match dd.transition 0 a with
          | none => dd.add_transition 0 a 0 .failure
          | some _ => Except.ok dd) d2 = .ok d3 := by
        unfold acInitializeRoot at hroot
        rw [if_pos rfl] at hroot
        exact hroot
      have hinit3 : d3.initial_state = some 0 := by
        refine @foldlM_preserve (fun dd => dd.initial_state = some 0)
          (fun dd a =>
            match dd.transition 0 a with
            | none => dd.add_transition 0 a 0 .failure
            | some _ => Except.ok dd) ?_ alph d2 d3 hrootfold gi2
        · intro dd a dd' hs hP
          simp only [] at hs
          cases ho : dd.transition 0 a with
          | none =>
            rw [ho] at hs
            rw [add_transition_initial hs]
            exact hP
          | some k =>
            rw [ho] at hs
            injection hs with hs'
            subst hs'
            exact hP
      have hrn3 : RowsNodup d3 := by
        refine @foldlM_preserve RowsNodup
          (fun dd a =>
            match dd.transition 0 a with
            | none => dd.add_transition 0 a 0 .failure
            | some _ => Except.ok dd) ?_ alph d2 d3 hrootfold grn2
        · intro dd a dd' hs hP
          simp only [] at hs
          cases ho : dd.transition 0 a with
          | none =>
            rw [ho] at hs
            exact rowsnodup_add_transition hs hP
          | some k =>
            rw [ho] at hs
            injection hs with hs'
            subst hs'
            exact hP
      have hAR3 : AllReach d3 := by
        intro mx3 hmx3 v hv
        rw [hdle3.states_eq] at hmx3
        exact reach_mono hdle3.mono (gAR2 mx3 hmx3 v hv)
      refine ⟨hinit3, ⟨mx2, by rw [hdle3.states_eq, gst2]⟩, ?_, hAR3,
        hw3 gw2, hrn3, hcomp3⟩
      rw [hdle3.alph_eq, ga2]

theorem acStep_ok {alph : List Sym} {d : DFA} {ff : List Nat} {e : Edge}
    {d1 : DFA} {ff1 : List Nat}
    (h : acStep true alph (d, ff) e = .ok (d1, ff1)) :
    DLE d d1 ∧ (WFtrans d → WFtrans d1) ∧
    ∀ a ∈ alph, (d1.transition e.2.2 a).isSome := by
  obtain ⟨parent, sym, index⟩ := e
  unfold acStep at h
  by_cases hp : (parent == 0) = true
  · simp only [hp, if_true, bind, Except.bind] at h
    cases htl : acTopLevel true alph sym index d with
    | error e2 => rw [htl] at h; exact Except.noConfusion h
    | ok dt =>
      simp only [htl] at h
      injection h with h'
      have hd := congrArg (fun z : DFA × List Nat => z.1) h'
      simp only [] at hd
      subst hd
      obtain ⟨g1, g2, g3⟩ := acTopLevel_spec htl
      exact ⟨g1, g2, g3⟩
  · simp only [hp, Bool.false_eq_true, if_false, bind, Except.bind] at h
    cases hpg : pyGet ff (parent - 1) with
    | error e2 => simp only [hpg] at h; exact Except.noConfusion h
    | ok f =>
      simp only [hpg] at h
      cases hset : pySetI ff ((index : Int) - 1)
          ((d.transition f sym).getD 0) with
      | error e2 => simp only [hset] at h; exact Except.noConfusion h
      | ok ffn =>
        simp only [hset, if_true] at h
        cases hpre : precompute_possible_transitions d index alph ffn with
        | error e2 => simp only [hpre] at h; exact Except.noConfusion h
        | ok dp =>
          simp only [hpre] at h
          injection h with h'
          have hd := congrArg (fun z : DFA × List Nat => z.1) h'
          simp only [] at hd
          subst hd
          obtain ⟨g1, g2, g3⟩ := precompute_spec hpre
          exact ⟨g1, g2, g3⟩

theorem acStepFold_inv {alph : List Sym} :
    ∀ (edges : List Edge) (d : DFA) (ff : List Nat) (dF : DFA)
      (ffF : List Nat),
      edges.foldlM (acStep true alph) (d, ff) = .ok (dF, ffF) →
      DLE d dF ∧ (WFtrans d → WFtrans dF) ∧
      ∀ e ∈ edges, ∀ a ∈ alph, (dF.transition e.2.2 a).isSome := by
  intro edges
  induction edges with
  | nil =>
    intro d ff dF ffF h
    rw [List.foldlM_nil] at h
    injection h with h'
    have hd := congrArg (fun z : DFA × List Nat => z.1) h'
    simp only [] at hd
    subst hd
    exact ⟨dle_refl d, fun hw => hw, fun e he => absurd he (List.not_mem_nil e)⟩
  | cons e edges ih =>
    intro d ff dF ffF h
    rw [List.foldlM_cons] at h
    cases hs : acStep true alph (d, ff) e with
    | error e2 =>
      simp only [hs, bind, Except.bind] at h
      exact Except.noConfusion h
    | ok pr =>
      obtain ⟨d1, ff1⟩ := pr
      simp only [hs, bind, Except.bind] at h
      obtain ⟨g1, g2, g3⟩ := acStep_ok hs
      obtain ⟨f1, f2, f3⟩ := ih d1 ff1 dF ffF h
      refine ⟨dle_trans g1 f1, fun hw => f2 (g2 hw), ?_⟩
      intro x hx a ha
      rcases List.mem_cons.mp hx with rfl | hxe
      · exact dle_isSome f1 (g3 a ha)
      · exact f3 x hxe a ha

theorem ac_build_facts {patterns : List (List Sym)}
    {alph : Option (List Sym)} {m : AhoCorasickMatcher}
    (h : AhoCorasickMatcher.build patterns true alph = .ok m) :
    m.compute_transitions = true ∧
    ∃ n, m.dfa.states = some n ∧ WFtrans m.dfa ∧
      ∀ st ≤ n, ∀ a ∈ m.dfa.alphabets, (m.dfa.transition st a).isSome := by
  unfold AhoCorasickMatcher.build at h
  by_cases he : patterns.isEmpty
  · simp [he] at h
  · simp only [he, Bool.false_eq_true, if_false] at h
    by_cases he2 : patterns.any (fun p => p.isEmpty)
    · simp [he2] at h
    · simp only [he2, Bool.false_eq_true, if_false, bind, Except.bind] at h
      set alset := alphabet_set_from_alphabets alph patterns with halset
      cases hinitd : acInitializeDfa true alset patterns with
      | error e => simp only [hinitd] at h; exact Except.noConfusion h
      | ok pr =>
        obtain ⟨d0, pm⟩ := pr
        simp only [hinitd] at h
        cases hbfs : d0.bfs_traverse with
        | error e => simp only [hbfs] at h; exact Except.noConfusion h
        | ok edges =>
          simp only [hbfs] at h
          cases hfold : edges.foldlM (acStep true alset)
              (d0, List.replicate d0.n_states 0) with
          | error e => simp only [hfold] at h; exact Except.noConfusion h
          | ok pr2 =>
            obtain ⟨dF, ffF⟩ := pr2
            simp only [hfold] at h
            injection h with h'
            subst h'
            obtain ⟨hinit0, ⟨n0, hst0⟩, halph0, hAR0, hw0, hrn0, hroot0⟩ :=
              acInitializeDfa_spec hinitd
            obtain ⟨hdleF, hwF, hcompF⟩ :=
              acStepFold_inv edges d0 (List.replicate d0.n_states 0) dF
                ffF hfold
            refine ⟨rfl, n0, ?_, hwF hw0, ?_⟩
            · rw [hdleF.states_eq, hst0]
            · intro st hle a ha
              have ha' : a ∈ alset := by
                rw [hdleF.alph_eq, halph0] at ha
                exact ha
              rcases Nat.eq_zero_or_pos st with rfl | hpos
              · exact dle_isSome hdleF (hroot0 a ha')
              · obtain ⟨e, hemem, hetgt⟩ :=
                  state_has_inedge_in_out hinit0 hrn0 hAR0 hst0 hbfs st
                    (by omega) hle
                rw [← hetgt]
                exact hcompF e hemem a ha'

theorem completeb_of_comp {d : DFA} {mx : Nat} (hstates : d.states = some mx)
    (hcomp : ∀ st ≤ mx, ∀ a ∈ d.alphabets, (d.transition st a).isSome) :
    d.completeb = true := by
  unfold DFA.completeb
  rw [List.all_eq_true]
  intro st hst
  rw [List.all_eq_true]
  intro a ha
  rw [List.mem_range] at hst
  have hle : st ≤ mx := by
    simp only [DFA.n_states, hstates] at hst
    omega
  exact hcomp st hle a ha

/-! ## Claims -/

/-- C1: the claim asserts that precomputed-mode search and on-the-fly-mode
search produce the same (position, pattern) sets for every pattern set and
every text over the patterns' alphabet.  The code refutes it: for the single
pattern "AABAAA" (alphabet {A, B}) and the text "AABAAAABAAA", the
precomputed matcher reports occurrences at 0 and 5, while the on-the-fly
matcher — whose fail functions are computed without following the failure
chain — misses the occurrence at 5. -/
theorem c1_kmp_mode_divergence :
    ((KMPMatcher.build (strL "AABAAA") true none).map
        (fun m => (m.searchRun 100 (strL "AABAAAABAAA")).1) =
      .ok ⟨[((0 : Int), strL "AABAAA"), ((5 : Int), strL "AABAAA")], none⟩) ∧
    ((KMPMatcher.build (strL "AABAAA") false none).map
        (fun m => (m.searchRun 100 (strL "AABAAAABAAA")).1) =
      .ok ⟨[((0 : Int), strL "AABAAA")], none⟩) ∧
    (((5 : Int), strL "AABAAA") ∉ [((0 : Int), strL "AABAAA")]) := by
  decide

/-- C2: the claim asserts that `pattern_map` sends each accepting state to
the exact pattern completing there, in particular when a shorter pattern is
a proper prefix of an earlier one, so that search only reports genuine
occurrences.  The code refutes it: building from ["ABABAC", "ABAB"], the
state 4 on which "ABAB" lands is marked accepting but keeps the off-by-one
map entry "ABA" recorded while "ABABAC" was inserted, and searching the text
"ABABAC" therefore reports (1, "ABA") — a string that is not among the
patterns and does not occur at position 1. -/
theorem c2_pattern_map_wrong_for_prefix_pattern :
    ((AhoCorasickMatcher.build [strL "ABABAC", strL "ABAB"] true none).map
        (fun m => ((m.searchRun 100 (strL "ABABAC")).1.ms,
                   dictGet m.pattern_map 4,
                   m.dfa.accepting_states.contains 4)) =
      .ok ([((1 : Int), strL "ABA"), ((0 : Int), strL "ABABAC")],
           some (strL "ABA"), true)) ∧
    occursAt (strL "ABABAC") 1 (strL "ABA") = false ∧
    (strL "ABA") ∉ [strL "ABABAC", strL "ABAB"] := by
  decide

/-- C3: the claim asserts that in both construction modes
`fail_functions[i-1]` is the classical prefix-function value for the
length-`i` prefix.  The code refutes it for the on-the-fly mode: for the
pattern "AABAAA" and i = 6 the classical value is 2 (border "AA"), and the
precomputed build agrees, but the on-the-fly build — which takes a single
transition step instead of following the failure chain — stores 0. -/
theorem c3_onthefly_fail_function_not_classical :
    ((KMPMatcher.build (strL "AABAAA") false none).map
        (fun m => m.fail_functions) = .ok [0, 1, 0, 1, 2, 0]) ∧
    prefixFun (strL "AABAAA") 6 = 2 ∧
    ((KMPMatcher.build (strL "AABAAA") true none).map
        (fun m => m.fail_functions) = .ok [0, 1, 0, 1, 2, 2]) := by
  decide

/-- C4: the claim asserts the round-trip law
`deserialize(serialize(build(P))).search(T) = build(P).search(T)` for both
record formats.  The code refutes it for the kmp format: the loader never
restores the `pattern` attribute, so searching the reloaded matcher raises
`AttributeError` at its first match emission instead of reproducing the
original matches — here pattern "A" on text "A". -/
theorem c4_kmp_round_trip_loses_pattern :
    (KMPMatcher.build (strL "A") true none).map (fun m =>
      ((m.searchRun 100 (strL "A")).1,
       (loadKmpMatcher m.serialize true).map
         (fun lm => (lm.searchRun 100 (strL "A")).1))) =
    .ok (⟨[((0 : Int), strL "A")], none⟩,
         .ok ⟨[], some "AttributeError: pattern"⟩) := by
  decide

/-- C5: the claim asserts that once an initial state exists, a further
`add_state(is_initial=True)` always fails and leaves the initial state
unchanged, in particular when the current initial state is state 0.  The
code refutes that particular case: the duplicate guard is the Python
truthiness test `if self.initial_state:`, which an initial state 0 does not
trip, so the second call returns normally and silently re-points the
initial state to the new state 1. -/
theorem c5_duplicate_initial_not_rejected_for_state_zero :
    (((DFA.empty ['a']).add_state false true).1.initial_state = some 0) ∧
    ((((DFA.empty ['a']).add_state false true).1.add_state false true).2 =
      Except.ok 1) ∧
    ((((DFA.empty ['a']).add_state false true).1.add_state false true).1.initial_state
      = some 1) := by
  decide

/-- C7: building the multi-pattern matcher from ["ABBAB", "BABBA"] and
searching "ABABBABBBA" yields exactly [(1, "BABBA"), (2, "ABBAB")], in both
construction modes. -/
theorem c7_overlap_scenario_both_modes :
    ((AhoCorasickMatcher.build [strL "ABBAB", strL "BABBA"] true none).map
        (fun m => (m.searchRun 100 (strL "ABABBABBBA")).1) =
      .ok ⟨[((1 : Int), strL "BABBA"), ((2 : Int), strL "ABBAB")], none⟩) ∧
    ((AhoCorasickMatcher.build [strL "ABBAB", strL "BABBA"] false none).map
        (fun m => (m.searchRun 100 (strL "ABABBABBBA")).1) =
      .ok ⟨[((1 : Int), strL "BABBA"), ((2 : Int), strL "ABBAB")], none⟩) := by
  decide

/-- C9: `DFA.transition` is total and never raises: for every automaton,
every integer state — negative and out-of-range included — and every
symbol — outside the alphabet included — the Except-valued translation of
the method returns `ok`, with the recorded target for non-negative states
that have one and `none` otherwise (in particular always `none` for
negative states). -/
theorem c9_transition_total_never_raises (d : DFA) (s : Int) (c : Sym) :
    d.transitionE s c =
      .ok (if 0 ≤ s then d.transition s.toNat c else none) := by
  rcases s with n | n
  · have hpred : (fun p : Nat × Row => ((p.1 : Int) == (n : Int)))
        = (fun p : Nat × Row => p.1 == n) := by
      funext p
      by_cases h : p.1 = n
      · simp [h]
      · simp [h, fun hc => h (Int.ofNat_inj.mp hc)]
    simp only [DFA.transitionE, DFA.transition, DFA.findRow, hpred,
      Int.ofNat_eq_coe, Int.toNat_ofNat]
    cases hf : d.transitions.find? (fun p : Nat × Row => p.1 == n) with
    | none => simp
    | some p => simp
  · have hfind : d.transitions.find?
        (fun p : Nat × Row => ((p.1 : Int) == Int.negSucc n)) = none := by
      apply List.find?_eq_none.mpr
      intro p _
      simp only [beq_iff_eq]
      intro hc
      rw [Int.negSucc_eq] at hc
      omega
    simp [DFA.transitionE, hfind]

/-- C9 witness: a concrete automaton queried at a negative state, an
out-of-range state, and an out-of-alphabet symbol, each returning `ok`. -/
theorem c9_transition_total_witness :
    ((((DFA.empty ['a']).add_state false true).1.transitionE (-3) 'a' =
      .ok none) ∧
     (((DFA.empty ['a']).add_state false true).1.transitionE 7 'a' =
      .ok none) ∧
     (((DFA.empty ['a']).add_state false true).1.transitionE 0 'z' =
      .ok none)) := by
  refine ⟨?_, ?_, ?_⟩
  · rw [c9_transition_total_never_raises]; decide
  · rw [c9_transition_total_never_raises]; decide
  · rw [c9_transition_total_never_raises]; decide

/-- C10: `bfs_traverse` demands an edge-bearing root: with an initial state
whose row is absent from the transition table it raises the `KeyError` of
`self.transitions[self.initial_state]` on its first step instead of yielding
the empty sequence, and with no initial state at all it raises the
`ValueError`. -/
theorem c10_bfs_requires_edge_bearing_root (d : DFA) (i : Nat) :
    (d.initial_state = some i → d.findRow i = none →
      d.bfs_traverse = .error "KeyError") ∧
    (d.initial_state = none →
      d.bfs_traverse = .error "ValueError: DFA has no initial state") := by
  constructor
  · intro h1 h2
    simp [DFA.bfs_traverse, h1, h2]
  · intro h
    simp [DFA.bfs_traverse, h]

/-- C10 witness: a two-state automaton with an initial state and no recorded
edges raises `KeyError`; an automaton without an initial state raises the
`ValueError`. -/
theorem c10_bfs_witness :
    ((((DFA.empty ['a', 'b']).add_state false true).1.add_state true false).1.bfs_traverse
      = .error "KeyError") ∧
    ((DFA.empty ['a']).bfs_traverse =
      .error "ValueError: DFA has no initial state") :=
  ⟨(c10_bfs_requires_edge_bearing_root
      (((DFA.empty ['a', 'b']).add_state false true).1.add_state true false).1 0).1
      (by decide) (by decide),
   (c10_bfs_requires_edge_bearing_root (DFA.empty ['a']) 0).2 (by decide)⟩

/-- C8: search is observably idempotent: for every matcher of either
builder in either mode, re-running `search` on the matcher as mutated by a
first run (on-the-fly caching rewrites only `self.dfa`) reproduces the first
run's outcome exactly — same ordered matches, same error if any, and no
further mutation.  Stated over the fuelled semantics for every fuel bound. -/
theorem c8_search_idempotent :
    (∀ (m : KMPMatcher) (fuel : Nat) (s : List Sym),
      ({ m with dfa := (m.searchRun fuel s).2 } : KMPMatcher).searchRun fuel s
        = m.searchRun fuel s) ∧
    (∀ (m : AhoCorasickMatcher) (fuel : Nat) (s : List Sym),
      ({ m with dfa := (m.searchRun fuel s).2 }
        : AhoCorasickMatcher).searchRun fuel s = m.searchRun fuel s) := by
  constructor
  · intro m fuel s
    unfold KMPMatcher.searchRun
    cases hct : m.compute_transitions with
    | true => simp [hct]
    | false =>
      simp only [hct, Bool.false_eq_true, if_false]
      exact searchLazy_fix m.fail_functions (kmpEmit m.pattern) fuel s m.dfa 0 0
  · intro m fuel s
    unfold AhoCorasickMatcher.searchRun
    cases hct : m.compute_transitions with
    | true => simp [hct]
    | false =>
      simp only [hct, Bool.false_eq_true, if_false]
      exact searchLazy_fix m.fail_functions (acEmit m.pattern_map) fuel s m.dfa 0 0

/-- C6: Whenever either builder accepts its pattern set with
`compute_transitions=True`, the constructed automaton carries a defined
transition for every allocated state and every alphabet symbol
(`completeb`), and therefore a precomputed-mode search over any text whose
symbols all lie in the automaton's alphabet never produces the
missing-transition fatal error `ValueError("Error in DFA definition")`. -/
theorem c6_precomputed_complete_and_safe :
    (∀ (pattern : List Sym) (alph : Option (List Sym)) (m : KMPMatcher),
      KMPMatcher.build pattern true alph = .ok m →
      m.dfa.completeb = true ∧
      ∀ (fuel : Nat) (s : List Sym),
        (∀ c ∈ s, m.dfa.alphabets.contains c = true) →
        ((m.searchRun fuel s).1).error ≠
          some "ValueError: Error in DFA definition") ∧
    (∀ (patterns : List (List Sym)) (alph : Option (List Sym))
        (m : AhoCorasickMatcher),
      AhoCorasickMatcher.build patterns true alph = .ok m →
      m.dfa.completeb = true ∧
      ∀ (fuel : Nat) (s : List Sym),
        (∀ c ∈ s, m.dfa.alphabets.contains c = true) →
        ((m.searchRun fuel s).1).error ≠
          some "ValueError: Error in DFA definition") := by
  constructor
  · intro pattern alph m h
    obtain ⟨hct, hst, _, hwf, hcomp⟩ := kmp_build_facts h
    refine ⟨completeb_of_comp hst hcomp, ?_⟩
    intro fuel s hal
    unfold KMPMatcher.searchRun
    rw [hct]
    simp only [if_true]
    refine searchPre_no_missing hst hcomp hwf ?_ s 0 0 (Nat.zero_le _) hal
    intro i t msg hem
    simp [kmpEmit] at hem
  · intro patterns alph m h
    obtain ⟨hct, n, hst, hwf, hcomp⟩ := ac_build_facts h
    refine ⟨completeb_of_comp hst hcomp, ?_⟩
    intro fuel s hal
    unfold AhoCorasickMatcher.searchRun
    rw [hct]
    simp only [if_true]
    refine searchPre_no_missing hst hcomp hwf ?_ s 0 0 (Nat.zero_le _) hal
    intro i t msg hem
    unfold acEmit at hem
    cases hd : dictGet m.pattern_map t with
    | none =>
      simp only [hd] at hem
      injection hem with hem
      subst hem
      decide
    | some p =>
      simp only [hd] at hem
      exact Except.noConfusion hem

/-- Witness for C6 at concrete inputs: the pattern "AB" for the
single-pattern builder, the patterns ["AB", "B"] for the multi-pattern
builder, and the text "ABAB". -/
theorem c6_precomputed_witness :
    (c6KmpM.dfa.completeb = true ∧
      ((c6KmpM.searchRun 0 (strL "ABAB")).1).error ≠
        some "ValueError: Error in DFA definition") ∧
    (c6AcM.dfa.completeb = true ∧
      ((c6AcM.searchRun 0 (strL "ABAB")).1).error ≠
        some "ValueError: Error in DFA definition") := by
  obtain ⟨hk, ha⟩ := c6_precomputed_complete_and_safe
  obtain ⟨hk1, hk2⟩ := hk (strL "AB") none c6KmpM (by decide)
  obtain ⟨ha1, ha2⟩ := ha [strL "AB", strL "B"] none c6AcM (by decide)
  exact ⟨⟨hk1, hk2 0 (strL "ABAB") (by decide)⟩,
    ⟨ha1, ha2 0 (strL "ABAB") (by decide)⟩⟩

end Termachick
